import Mathlib

/-!
Verification of the network-volume-manager file service.

This file gives a shallow embedding of the core of `app/app.py`
(class `FileSystem`: `validate_path`, `upload`, `upload_chunk`,
`create_folder`, `file_operation`, `rename`, `delete`, `move`,
`move_multiple`) and of `app/utils.py` (`sanitize_path`) together with the
pieces of the Python standard library they rely on (pathlib path joining
and rendering, `os.path.normpath`, `os.path.basename`, `os.path.join`,
`Path.with_suffix`, decimal formatting of integers).

The filesystem is modelled as an association list from resolved absolute
paths (lists of name segments) to entries (directories or files with byte
content).  `exists()` resolves `..` lexically, as the OS does in the
absence of symlinks; the textual `str(path).startswith(str(base))` check
of `validate_path` is modelled on the unresolved rendered string, exactly
as in the source.  Python exceptions are modelled with `Except`; the
status codes and detail strings follow `FileSystemError` in the source.
-/

namespace NVM

/-! ## Decimal rendering of naturals (Python `str(n)` / f-string formatting) -/

/-- The decimal digit characters. -/
def digitChr : Nat → Char
  | 0 => '0' | 1 => '1' | 2 => '2' | 3 => '3' | 4 => '4'
  | 5 => '5' | 6 => '6' | 7 => '7' | 8 => '8' | 9 => '9'
  | _ => '*'

/-- Numeric value of a digit character. -/
def digitVal (c : Char) : Nat := c.toNat - 48

/-- Decimal digit list with explicit fuel (structural, so that concrete
instances reduce); `decChars` supplies enough fuel. -/
def decCharsAux : Nat → Nat → List Char
  | 0, _ => []
  | fuel + 1, n =>
      if n < 10 then [digitChr n]
      else decCharsAux fuel (n / 10) ++ [digitChr (n % 10)]

/-- Decimal digit list of a natural number, most significant first. -/
def decChars (n : Nat) : List Char := decCharsAux (n + 1) n

/-- Decimal rendering of a natural number, as Python `str(n)` produces. -/
def decStr (n : Nat) : String := String.mk (decChars n)

/-- Reading decimal digits back, left to right. -/
def decVal (l : List Char) : Nat := l.foldl (fun a c => a * 10 + digitVal c) 0

/-! ## Splitting and joining on '/' (Python `str.split('/')`, `'/'.join`) -/

/-- Leading-characters test: `leadChars p l` is true iff `p` is an initial
segment of `l`.  Models Python `str.startswith` at character level. -/
def leadChars : List Char → List Char → Bool
  | [], _ => true
  | _ :: _, [] => false
  | a :: as, b :: bs => decide (a = b) && leadChars as bs

/-- Split a character list on '/', keeping empty pieces, as Python
`s.split('/')` does. -/
def splitSlash : List Char → List String
  | [] => [""]
  | c :: rest =>
    match splitSlash rest with
    | [] => []
    | s :: tail =>
      if c = '/' then "" :: s :: tail else String.mk (c :: s.data) :: tail

/-- Join segments with '/', as Python `'/'.join` does. -/
def joinSlash : List String → List Char
  | [] => []
  | [s] => s.data
  | s :: t :: rest => s.data ++ '/' :: joinSlash (t :: rest)

/-! ## Pathlib-style paths

`PPath` models a `pathlib.PurePosixPath`: an absoluteness flag and the list
of components.  pathlib drops empty and `'.'` components when parsing a
string but keeps `'..'`; joining with an absolute right operand replaces
the left operand; `str` renders with `'/'` separators. -/

structure PPath where
  abs : Bool
  comps : List String

deriving DecidableEq, Repr

/-- Does the rendered string start with '/'. -/
def startsSlash (s : String) : Bool := leadChars ['/'] s.data

/-- Parse a string into a `PPath`, as `pathlib.PurePosixPath(s)` does. -/
def parsePath (s : String) : PPath :=
  ⟨startsSlash s, (splitSlash s.data).filter (fun c => !(c == "" || c == "."))⟩

/-- `a / b` on pathlib paths: an absolute right side replaces the left. -/
def pjoin (a b : PPath) : PPath :=
  if b.abs then b else ⟨a.abs, a.comps ++ b.comps⟩

/-- `p / s` for a string `s`, as the Python code forms `path / name`. -/
def pchild (p : PPath) (s : String) : PPath := pjoin p (parsePath s)

/-- `str(p)` for an (absolute or relative) pathlib path. -/
def pstr (p : PPath) : String :=
  String.mk ((if p.abs then ['/'] else []) ++ joinSlash p.comps)

/-- Python `str.startswith`: `strStartsWith s t` is `s.startswith(t)`. -/
def strStartsWith (s t : String) : Bool := leadChars t.data s.data

/-- Lexical resolution of components against the filesystem root: empty and
`'.'` segments vanish, `'..'` removes the previous segment (and is a no-op
at the root), everything else is pushed.  This is what `Path.exists()`
observes on a symlink-free filesystem. -/
def resolveComps (cs : List String) : List String :=
  cs.foldl
    (fun acc c =>
      if c = "" ∨ c = "." then acc
      else if c = ".." then acc.dropLast
      else acc ++ [c]) []

/-- Resolved key of a path in the model filesystem. -/
def PPath.resolve (p : PPath) : List String := resolveComps p.comps

/-- A single well-behaved path segment: nonempty, not a dot segment, and
free of separators. -/
def CleanSeg (s : String) : Prop :=
  s ≠ "" ∧ s ≠ "." ∧ s ≠ ".." ∧ '/' ∉ s.data

instance decCleanSeg (s : String) : Decidable (CleanSeg s) := by
  unfold CleanSeg
  infer_instance

/-! ## `Path.with_suffix('.tmp')` -/

/-- Index of the last '.' in a name, Python `str.rfind('.')` (as `Option`). -/
def lastDot (cs : List Char) : Option Nat :=
  (List.range cs.length).foldl
    (fun acc i => if cs.getD i ' ' = '.' then some i else acc) none

/-- The pathlib stem of a file name: the name with its suffix removed.
pathlib treats a leading dot or a trailing dot as not starting a suffix. -/
def stemOf (name : String) : String :=
  match lastDot name.data with
  | some i =>
      if 0 < i ∧ i < name.data.length - 1 then String.mk (name.data.take i) else name
  | none => name

/-- Name of the temporary sibling used by the atomic-write pattern:
`file_path.with_suffix('.tmp')` applied to the last component. -/
def tmpName (name : String) : String := stemOf name ++ ".tmp"

/-- `p.with_suffix('.tmp')`: replace the last component by its stem plus
the `.tmp` suffix. -/
def withSuffixTmp (p : PPath) : PPath :=
  ⟨p.abs, p.comps.dropLast ++ [tmpName (p.comps.getLastD "")]⟩

/-! ## The model filesystem -/

/-- Raw byte content of a file. -/
abbrev Bytes := List Nat

/-- A filesystem entry: a directory or a file with its content. -/
inductive Entry
  | dir
  | file (content : Bytes)

deriving DecidableEq, Repr

/-- Initial-segment test on path keys. -/
def isUnder : List String → List String → Bool
  | [], _ => true
  | _ :: _, [] => false
  | a :: as, b :: bs => decide (a = b) && isUnder as bs

/-- The filesystem: an association list from resolved absolute paths to
entries.  Earlier entries shadow later ones (the operations below keep at
most one entry per key). -/
structure FS where
  entries : List (List String × Entry)

deriving DecidableEq, Repr

/-- First entry stored under a key. -/
def lookupKey (k : List String) : List (List String × Entry) → Option Entry
  | [] => none
  | e :: rest => if e.1 = k then some e.2 else lookupKey k rest

def FS.lookup (fs : FS) (k : List String) : Option Entry := lookupKey k fs.entries

/-- Remove the entry stored under a key (`unlink`). -/
def FS.erase (fs : FS) (k : List String) : FS :=
  ⟨fs.entries.filter (fun e => !(e.1 == k))⟩

/-- Create or overwrite the entry under a key (`open(..., 'wb')`/`mkdir`). -/
def FS.set (fs : FS) (k : List String) (v : Entry) : FS :=
  ⟨(k, v) :: (fs.erase k).entries⟩

/-- Remove a key and everything below it (`shutil.rmtree`). -/
def FS.eraseTree (fs : FS) (k : List String) : FS :=
  ⟨fs.entries.filter (fun e => !(isUnder k e.1))⟩

/-- Rename a key and everything below it (`Path.rename` / `shutil.move`). -/
def FS.renameTree (fs : FS) (src dst : List String) : FS :=
  ⟨fs.entries.map
    (fun e => (if isUnder src e.1 then dst ++ e.1.drop src.length else e.1, e.2))⟩

/-- `path.exists()` in the model: the resolved key is present. -/
def pexists (fs : FS) (p : PPath) : Bool := (fs.lookup p.resolve).isSome

/-- `path.is_dir()` in the model. -/
def pIsDir (fs : FS) (p : PPath) : Bool := decide (fs.lookup p.resolve = some .dir)

/-- `path.is_file()` in the model. -/
def pIsFile (fs : FS) (p : PPath) : Bool :=
  match fs.lookup p.resolve with
  | some (.file _) => true
  | _ => false

/-! ## Errors (`FileSystemError` constants and `raise_error`) -/

inductive Err
  | volumeNotMounted
  | pathNotFound
  | accessDenied (detail : String)
  | directoryNotFound
  | noFileUploaded
  | itemExists

deriving DecidableEq, Repr

/-- The detail text carried by the raised `HTTPException` (the predefined
message, or the custom detail for `ACCESS_DENIED` with an argument). -/
def Err.detail : Err → String
  | .volumeNotMounted => "Volume not mounted"
  | .pathNotFound => "Path not found"
  | .accessDenied d => d
  | .directoryNotFound => "Directory not found"
  | .noFileUploaded => "No file uploaded"
  | .itemExists => "An item with this name already exists"

/-- The HTTP status code paired with each predefined error. -/
def Err.status : Err → Nat
  | .volumeNotMounted => 400
  | .pathNotFound => 404
  | .accessDenied _ => 403
  | .directoryNotFound => 404
  | .noFileUploaded => 400
  | .itemExists => 400

/-- `str(HTTPException(...))` as starlette renders it: `"status: detail"`.
Used where the code re-wraps a caught `HTTPException` via `str(e)`. -/
def httpStr (e : Err) : String := decStr e.status ++ ": " ++ e.detail

/-! ## `FileSystem.validate_path` -/

/-- `FileSystem.validate_path(path, require_dir)` with base directory
`base`: volume mount check, existence check, textual prefix containment
check on the unresolved rendered strings, and directory check, in that
source order. -/
def validate_path (fs : FS) (base p : PPath) (require_dir : Bool) :
    Except Err Unit :=
  if pexists fs base = false then .error .volumeNotMounted
  else if pexists fs p = false then .error .pathNotFound
  else if strStartsWith (pstr p) (pstr base) = false then
    .error (.accessDenied "Access denied")
  else if require_dir = true ∧ pIsDir fs p = false then .error .directoryNotFound
  else .ok ()

/-! ## `FileSystem.upload` (whole-file upload with temp-file pattern)

IO failures during the two steps inside the `try` block (writing the temp
file, renaming it onto the destination) are injected through an explicit
parameter; `writeFail` carries the bytes left in the temp file when the
write raised (`none` when `open` itself failed and no temp file was
created). -/

inductive UploadExc
  | writeFail (leftover : Option Bytes) (msg : String)
  | renameFail (msg : String)

deriving DecidableEq, Repr

def upload (fs : FS) (base : PPath) (file : Option (String × Bytes))
    (path : PPath) (exc : Option UploadExc) : Except Err Unit × FS :=
  match validate_path fs base path true with
  | .error e => (.error e, fs)
  | .ok _ =>
    match file with
    | none => (.error .noFileUploaded, fs)
    | some (filename, content) =>
      let file_path := pchild path filename
      if pexists fs file_path then (.error .itemExists, fs)
      else
        let temp_path := withSuffixTmp file_path
        match exc with
        | some (.writeFail leftover msg) =>
            let fs1 := match leftover with
                       | some bs => fs.set temp_path.resolve (.file bs)
                       | none => fs
            let fs2 := if pexists fs1 temp_path then fs1.erase temp_path.resolve else fs1
            (.error (.accessDenied msg), fs2)
        | some (.renameFail msg) =>
            let fs1 := fs.set temp_path.resolve (.file content)
            let fs2 := if pexists fs1 temp_path then fs1.erase temp_path.resolve else fs1
            (.error (.accessDenied msg), fs2)
        | none =>
            let fs1 := fs.set temp_path.resolve (.file content)
            let fs2 := fs1.renameTree temp_path.resolve file_path.resolve
            (.ok (), fs2)

/-! ## `FileSystem.upload_chunk` -/

inductive ChunkStatus
  | chunkReceived (chunk total : Nat)
  | complete (filename : String)

deriving DecidableEq, Repr

/-- Content of the file stored at a path (empty for directories/missing;
only ever used on paths known to hold files). -/
def contentAt (fs : FS) (p : PPath) : Bytes :=
  match fs.lookup p.resolve with
  | some (.file c) => c
  | _ => []

/-- First index `i` in `[k, k+n)` with `p i`, scanning upward — the
`for i in range(total_chunks)` existence scan of the reassembly loop. -/
def firstMissingAux (p : Nat → Bool) (k : Nat) : Nat → Option Nat
  | 0 => none
  | n + 1 => if p k then some k else firstMissingAux p (k + 1) n

/-- Concatenation `f k ++ f (k+1) ++ ... ++ f (k+n-1)` — the bytes the
reassembly loop has streamed into the temp file after `n` parts. -/
def concatFrom (f : Nat → Bytes) (k : Nat) : Nat → Bytes
  | 0 => []
  | n + 1 => f k ++ concatFrom f (k + 1) n

/-- The two on-demand `mkdir(exist_ok=True)` steps of `upload_chunk`:
create `path/.chunks` and `path/.chunks/filename` when absent. -/
def chunkScratchFS (fs : FS) (path : PPath) (filename : String) : FS :=
  let fs1 := if pexists fs (pchild path ".chunks") then fs
             else fs.set (pchild path ".chunks").resolve .dir
  if pexists fs1 (pchild (pchild path ".chunks") filename) then fs1
  else fs1.set (pchild (pchild path ".chunks") filename).resolve .dir

/-- `FileSystem.upload_chunk`.  Writes the arriving chunk to
`path/.chunks/filename/{index}.part` (creating the scratch directories on
demand) and, exactly when the arriving index is `total_chunks - 1`,
combines parts `0..total_chunks-1` in ascending order into a temp file and
renames it onto the destination.  A missing part raises
`FileNotFoundError`, which the inner handler converts to `ACCESS_DENIED`
with the message text and the outer `except Exception` handler wraps once
more via `str(e)`; an existing destination raises `ITEM_EXISTS`, likewise
re-wrapped by the outer handler. -/
def upload_chunk (fs : FS) (base : PPath) (filename : String)
    (chunk_index total_chunks : Nat) (chunk_data : Bytes) (path : PPath) :
    Except Err ChunkStatus × FS :=
  match validate_path fs base path true with
  | .error e => (.error e, fs)
  | .ok _ =>
    let file_chunks_dir := pchild (pchild path ".chunks") filename
    let fs2 := chunkScratchFS fs path filename
    let chunk_file := pchild file_chunks_dir (decStr chunk_index ++ ".part")
    let fs3 := fs2.set chunk_file.resolve (.file chunk_data)
    if (chunk_index : Int) = (total_chunks : Int) - 1 then
      let file_path := pchild path filename
      if pexists fs3 file_path then
        (.error (.accessDenied (httpStr .itemExists)), fs3)
      else
        let temp_path := withSuffixTmp file_path
        let partAt := fun i => pchild file_chunks_dir (decStr i ++ ".part")
        match firstMissingAux (fun i => !(pexists fs3 (partAt i))) 0 total_chunks with
        | some i =>
            let fs4 := fs3.set temp_path.resolve
              (.file (concatFrom (fun j => contentAt fs3 (partAt j)) 0 i))
            let fs5 := fs4.erase temp_path.resolve
            (.error (.accessDenied
              (httpStr (.accessDenied ("Chunk " ++ decStr i ++ " is missing")))), fs5)
        | none =>
            let fs4 := fs3.set temp_path.resolve
              (.file (concatFrom (fun j => contentAt fs3 (partAt j)) 0 total_chunks))
            let fs5 := fs4.renameTree temp_path.resolve file_path.resolve
            let fs6 := fs5.eraseTree file_chunks_dir.resolve
            (.ok (.complete filename), fs6)
    else
      (.ok (.chunkReceived chunk_index total_chunks), fs3)

/-- Deliver a sequence of chunks through `upload_chunk`, threading the
filesystem; the pair holds the last call's outcome and the final
filesystem.  Models a client sending the chunks in the given order. -/
def runChunks (fs : FS) (base : PPath) (filename : String) (total : Nat)
    (chunkAt : Nat → Bytes) (path : PPath) (order : List Nat) :
    Except Err ChunkStatus × FS :=
  order.foldl
    (fun acc i => upload_chunk acc.2 base filename i total (chunkAt i) path)
    (.ok (.chunkReceived 0 total), fs)

/-! ## `FileSystem.create_folder` -/

/-- The candidate names tried by `create_folder`, in order:
`Untitled Folder`, `Untitled Folder 1`, `Untitled Folder 2`, ... -/
def untitledName : Nat → String
  | 0 => "Untitled Folder"
  | k + 1 => "Untitled Folder " ++ decStr (k + 1)

/-- The `while (path / folder_name).exists()` loop of `create_folder`,
with explicit fuel (the loop terminates because the filesystem is finite;
the callers below pass enough fuel, see `findName_spec`). -/
def findName (taken : String → Bool) : Nat → Nat → String
  | 0, k => untitledName k
  | fuel + 1, k =>
      if taken (untitledName k) then findName taken fuel (k + 1) else untitledName k

/-- `FileSystem.create_folder`: validate the directory, allocate the first
free `Untitled Folder` name, create it. -/
def create_folder (fs : FS) (base : PPath) (path : PPath) :
    Except Err String × FS :=
  match validate_path fs base path true with
  | .error e => (.error e, fs)
  | .ok _ =>
    let folder_name :=
      findName (fun name => pexists fs (pchild path name)) (fs.entries.length + 1) 0
    (.ok folder_name, fs.set (pchild path folder_name).resolve .dir)

/-! ## `FileSystem.file_operation` and its wrappers -/

/-- `FileSystem.file_operation(operation, source_path, item_name,
destination_path, new_name)`: validates the source directory and the item,
then dispatches on the operation string, exactly as the source does.
`HTTPException`s raised inside the `try` block are re-raised unchanged by
the `except HTTPException: raise` arm. -/
def file_operation (fs : FS) (base : PPath) (operation : String)
    (source_path : PPath) (item_name : String)
    (destination_path : Option PPath) (new_name : Option String) :
    Except Err Unit × FS :=
  match validate_path fs base source_path true with
  | .error e => (.error e, fs)
  | .ok _ =>
    let item_path := pchild source_path item_name
    match validate_path fs base item_path false with
    | .error e => (.error e, fs)
    | .ok _ =>
      if operation = "rename" then
        match new_name with
        | none => (.error (.accessDenied "New name is required"), fs)
        | some nn =>
          let new_path := pchild source_path nn
          if pexists fs new_path then (.error .itemExists, fs)
          else (.ok (), fs.renameTree item_path.resolve new_path.resolve)
      else if operation = "delete" then
        if pIsFile fs item_path then (.ok (), fs.erase item_path.resolve)
        else (.ok (), fs.eraseTree item_path.resolve)
      else if operation = "move" then
        match destination_path with
        | none => (.error (.accessDenied "Destination path is required"), fs)
        | some dest =>
          match validate_path fs base dest true with
          | .error e => (.error e, fs)
          | .ok _ =>
            let dest_item_path := pchild dest item_name
            if pexists fs dest_item_path then (.error .itemExists, fs)
            else
              (.ok (), fs.renameTree item_path.resolve
                (dest.resolve ++ [item_path.comps.getLastD ""]))
      else (.error (.accessDenied ("Unknown operation: " ++ operation)), fs)

/-- `FileSystem.rename`. -/
def rename (fs : FS) (base : PPath) (path : PPath) (old_name new_name : String) :
    Except Err Unit × FS :=
  file_operation fs base "rename" path old_name none (some new_name)

/-- `FileSystem.delete`. -/
def delete (fs : FS) (base : PPath) (path : PPath) (item_name : String) :
    Except Err Unit × FS :=
  file_operation fs base "delete" path item_name none none

/-- `FileSystem.move`. -/
def move (fs : FS) (base : PPath) (source_path : PPath) (item_name : String)
    (destination_path : PPath) : Except Err Unit × FS :=
  file_operation fs base "move" source_path item_name (some destination_path) none

/-- One iteration of `move_multiple`'s loop: move the item, record the
name under `success` or the name and the exception detail under
`failed`, and continue with the updated filesystem. -/
def moveStep (base source_path destination_path : PPath)
    (acc : List String × List (String × String) × FS) (name : String) :
    List String × List (String × String) × FS :=
  match move acc.2.2 base source_path name destination_path with
  | (.ok _, fs') => (acc.1 ++ [name], acc.2.1, fs')
  | (.error e, fs') => (acc.1, acc.2.1 ++ [(name, e.detail)], fs')

/-- `FileSystem.move_multiple`: validates both directories, then moves each
item, collecting successes and per-item failure details; an
`HTTPException` from one item is recorded and iteration continues. -/
def move_multiple (fs : FS) (base : PPath) (source_path : PPath)
    (item_names : List String) (destination_path : PPath) :
    Except Err (List String × List (String × String)) × FS :=
  match validate_path fs base source_path true with
  | .error e => (.error e, fs)
  | .ok _ =>
    match validate_path fs base destination_path true with
    | .error e => (.error e, fs)
    | .ok _ =>
      let r := item_names.foldl (moveStep base source_path destination_path) ([], [], fs)
      (.ok (r.1, r.2.1), r.2.2)

/-! ## `os.path.normpath`, `os.path.basename`, `os.path.join` and
`sanitize_path` (the socket variant, `app/utils.py`) -/

/-- One step of the `os.path.normpath` component scan: skip empty and dot
components; append a component unless it is a collapsible `'..'`; a
collapsible `'..'` pops the previous component. -/
def npStep (isl : Nat) (acc : List String) (comp : String) : List String :=
  if comp = "" ∨ comp = "." then acc
  else if comp ≠ ".." ∨ (isl = 0 ∧ acc = []) ∨ (acc ≠ [] ∧ acc.getLast? = some "..") then
    acc ++ [comp]
  else if acc ≠ [] then acc.dropLast
  else acc

/-- Number of initial slashes `normpath` preserves (POSIX keeps exactly
two; one, or three or more, collapse to one). -/
def initialSlashes (s : String) : Nat :=
  if startsSlash s then
    if leadChars ['/', '/'] s.data = true ∧ leadChars ['/', '/', '/'] s.data = false
    then 2 else 1
  else 0

/-- The component list `os.path.normpath` accumulates. -/
def newCompsOf (s : String) : List String :=
  (splitSlash s.data).foldl (npStep (initialSlashes s)) []

/-- `os.path.normpath` for POSIX paths (`return path or '.'` becomes the
emptiness test on the rebuilt character list). -/
def normpath (s : String) : String :=
  if s = "" then "."
  else if List.replicate (initialSlashes s) '/' ++ joinSlash (newCompsOf s) = [] then "."
  else String.mk (List.replicate (initialSlashes s) '/' ++ joinSlash (newCompsOf s))

/-- `os.path.basename`: everything after the last '/'. -/
def basename (s : String) : String := (splitSlash s.data).getLastD ""

/-- Characters kept by `sanitize_path`'s filter: alphanumeric (modelled at
the ASCII level) or one of `._- /`. -/
def keepChar (c : Char) : Bool :=
  c.isAlphanum || c == '.' || c == '_' || c == '-' || c == ' ' || c == '/'

/-- `sanitize_path` from `app/utils.py`: normalize, take the basename of
paths that normalize to an absolute or `..`-leading form, otherwise strip
disallowed characters. -/
def sanitize_path (file_path : String) : String :=
  if leadChars ['.', '.'] (normpath file_path).data ∨ startsSlash (normpath file_path) then
    basename (normpath file_path)
  else
    String.mk ((normpath file_path).data.filter keepChar)

/-- `os.path.join` for POSIX paths, two arguments. -/
def ojoin (a b : String) : String :=
  if startsSlash b then b
  else if a = "" then b
  else if a.data.getLast? = some '/' then a ++ b
  else a ++ "/" ++ b

/-- Lexical resolution of a rendered path string. -/
def resolveStr (s : String) : List String := resolveComps (splitSlash s.data)

/-! ### Invariants of the `normpath` component scan -/

/-- Invariant of the `normpath` accumulator: components are nonempty,
slash-free, drawn from the source characters; under an absolute prefix no
`'..'` survives; and the surviving `'..'` components form a leading
block. -/
def GoodComps (isl : Nat) (src : List Char) (acc : List String) : Prop :=
  (∀ x ∈ acc, x ≠ "" ∧ '/' ∉ x.data ∧ ∀ c ∈ x.data, c ∈ src) ∧
  (isl ≠ 0 → ∀ x ∈ acc, x ≠ "..") ∧
  (∃ m rest, acc = List.replicate m ".." ++ rest ∧ ".." ∉ rest)

/-! ## Concrete fixtures used by witnesses and counterexamples -/

deriving instance DecidableEq for Except

/-- The message text an injected upload failure carries. -/
def UploadExc.msg : UploadExc → String
  | .writeFail _ m => m
  | .renameFail m => m

/-- A volume root `/vol`. -/
def vol : PPath := ⟨true, ["vol"]⟩

/-- A filesystem holding only the mounted volume root. -/
def fsVol : FS := ⟨[(["vol"], .dir)]⟩

/-- Volume root plus an outside directory `/etc` with a file, for the
containment counterexample. -/
def fsEscape : FS :=
  ⟨[(["vol"], .dir), (["etc"], .dir), (["etc", "passwd"], .file [42])]⟩

/-- Two directories under the volume with a name collision on `b`, for the
batch-move scenario. -/
def fsMove : FS :=
  ⟨[(["vol"], .dir), (["vol", "srcd"], .dir), (["vol", "dstd"], .dir),
    (["vol", "srcd", "a"], .file [1]), (["vol", "srcd", "b"], .file [2]),
    (["vol", "srcd", "c"], .file [3]), (["vol", "dstd", "b"], .file [9])]⟩

/-- Source directory of the batch-move scenario. -/
def srcD : PPath := ⟨true, ["vol", "srcd"]⟩

/-- Destination directory of the batch-move scenario. -/
def dstD : PPath := ⟨true, ["vol", "dstd"]⟩

/-- Volume with two allocated folder names, for the name allocator. -/
def fsUntitled : FS :=
  ⟨[(["vol"], .dir), (["vol", "Untitled Folder"], .dir),
    (["vol", "Untitled Folder 1"], .dir)]⟩

/-- Volume with one subdirectory `d`, for the delete-missing scenario. -/
def fsDir : FS := ⟨[(["vol"], .dir), (["vol", "d"], .dir)]⟩

/-- Volume with files for the destination-collision scenarios. -/
def fsCollide : FS :=
  ⟨[(["vol"], .dir), (["vol", "d1"], .dir), (["vol", "d2"], .dir),
    (["vol", "d1", "x"], .file [1]), (["vol", "d2", "x"], .file [2]),
    (["vol", "d1", "y"], .file [3])]⟩

/-- Chunk contents used in the chunked-upload witnesses. -/
def chunkW : Nat → Bytes := fun i => if i = 0 then [1] else if i = 1 then [2, 3] else []

/-! ## Keys of the chunked-upload session -/

/-- Name of the part file for chunk `i`. -/
def partName (i : Nat) : String := decStr i ++ ".part"

/-- Resolved key of `path/.chunks`. -/
def chunksKey (path : PPath) : List String := path.resolve ++ [".chunks"]

/-- Resolved key of the per-file scratch directory `path/.chunks/filename`. -/
def fcdKey (path : PPath) (filename : String) : List String :=
  path.resolve ++ [".chunks", filename]

/-- Resolved key of the part file for chunk `i`. -/
def partKey (path : PPath) (filename : String) (i : Nat) : List String :=
  path.resolve ++ [".chunks", filename, partName i]

/-- Resolved key of the upload destination `path/filename`. -/
def destKey (path : PPath) (filename : String) : List String :=
  path.resolve ++ [filename]

/-- Resolved key of the temp file used while assembling or uploading. -/
def tempKey (path : PPath) (filename : String) : List String :=
  path.resolve ++ [tmpName filename]

/-- Invariant maintained while chunks of a `(filename, path)` session are
being received: delivered parts hold their chunk bytes, undelivered part
keys are untouched, the two scratch directories are either created or
untouched, and every other key is untouched. -/
def ChunkInv (fs₀ : FS) (path : PPath) (filename : String)
    (chunkAt : Nat → Bytes) (fs : FS) (S : List Nat) : Prop :=
  (∀ i ∈ S, fs.lookup (partKey path filename i) = some (.file (chunkAt i))) ∧
  (∀ i, i ∉ S → fs.lookup (partKey path filename i) =
    fs₀.lookup (partKey path filename i)) ∧
  (fs.lookup (chunksKey path) = some .dir ∨
    fs.lookup (chunksKey path) = fs₀.lookup (chunksKey path)) ∧
  (fs.lookup (fcdKey path filename) = some .dir ∨
    fs.lookup (fcdKey path filename) = fs₀.lookup (fcdKey path filename)) ∧
  (∀ k, k ≠ chunksKey path → k ≠ fcdKey path filename →
    (∀ i, k ≠ partKey path filename i) → fs.lookup k = fs₀.lookup k)

/-! ## Theorems -/

theorem digitVal_digitChr {d : Nat} (h : d < 10) : digitVal (digitChr d) = d := by
  interval_cases d <;> rfl

theorem decVal_append (l : List Char) (c : Char) :
    decVal (l ++ [c]) = decVal l * 10 + digitVal c := by
  simp [decVal, List.foldl_append]

theorem decVal_decCharsAux :
    ∀ (fuel n : Nat), n < fuel → decVal (decCharsAux fuel n) = n := by
  intro fuel
  induction fuel with
  | zero => intro n h; omega
  | succ f ih =>
    intro n h
    unfold decCharsAux
    by_cases h10 : n < 10
    · rw [if_pos h10]
      simp [decVal, digitVal_digitChr h10]
    · rw [if_neg h10]
      rw [decVal_append, ih (n / 10) (by omega),
        digitVal_digitChr (Nat.mod_lt _ (by omega))]
      omega

theorem decVal_decChars (n : Nat) : decVal (decChars n) = n :=
  decVal_decCharsAux (n + 1) n (by omega)

theorem decStr_injective : Function.Injective decStr := by
  intro m n h
  have : decChars m = decChars n := congrArg String.data h
  have := congrArg decVal this
  rwa [decVal_decChars, decVal_decChars] at this

theorem decCharsAux_digits :
    ∀ (fuel n : Nat), ∀ c ∈ decCharsAux fuel n, c.isDigit = true := by
  intro fuel
  induction fuel with
  | zero => intro n c hc; simp [decCharsAux] at hc
  | succ f ih =>
    intro n c hc
    unfold decCharsAux at hc
    by_cases h10 : n < 10
    · rw [if_pos h10] at hc
      simp at hc
      subst hc
      interval_cases n <;> rfl
    · rw [if_neg h10] at hc
      simp only [List.mem_append, List.mem_singleton] at hc
      rcases hc with hc | hc
      · exact ih (n / 10) c hc
      · subst hc
        have : n % 10 < 10 := Nat.mod_lt _ (by omega)
        interval_cases h : n % 10 <;> rfl

theorem decChars_digits (n : Nat) : ∀ c ∈ decChars n, c.isDigit = true :=
  decCharsAux_digits (n + 1) n

theorem decChars_ne_nil (n : Nat) : decChars n ≠ [] := by
  unfold decChars decCharsAux
  split <;> simp

theorem splitSlash_ne_nil (cs : List Char) : splitSlash cs ≠ [] := by
  induction cs with
  | nil => simp [splitSlash]
  | cons c rest ih =>
    obtain ⟨s, tail, h⟩ : ∃ s tail, splitSlash rest = s :: tail := by
      cases hr : splitSlash rest with
      | nil => exact absurd hr ih
      | cons s tail => exact ⟨s, tail, rfl⟩
    simp only [splitSlash, h]
    split <;> simp

theorem splitSlash_cons_eq {rest : List Char} {s : String} {tail : List String}
    (c : Char) (h : splitSlash rest = s :: tail) :
    splitSlash (c :: rest) =
      if c = '/' then "" :: s :: tail else String.mk (c :: s.data) :: tail := by
  simp only [splitSlash, h]

theorem splitSlash_head (cs : List Char) :
    ∃ s tail, splitSlash cs = s :: tail := by
  cases h : splitSlash cs with
  | nil => exact absurd h (splitSlash_ne_nil cs)
  | cons s tail => exact ⟨s, tail, rfl⟩

theorem splitSlash_no_slash (cs : List Char) (h : '/' ∉ cs) :
    splitSlash cs = [String.mk cs] := by
  induction cs with
  | nil => rfl
  | cons c rest ih =>
    simp only [List.mem_cons, not_or] at h
    rw [splitSlash_cons_eq c (ih h.2), if_neg (fun hc => absurd hc.symm h.1)]

theorem splitSlash_append (a b : List Char) :
    splitSlash (a ++ '/' :: b) = splitSlash a ++ splitSlash b := by
  induction a with
  | nil =>
    obtain ⟨s, tail, h⟩ := splitSlash_head b
    rw [List.nil_append, splitSlash_cons_eq '/' h, if_pos rfl, h]
    rfl
  | cons c a' ih =>
    obtain ⟨s', tail', h'⟩ := splitSlash_head a'
    have hL : splitSlash (a' ++ '/' :: b) = s' :: (tail' ++ splitSlash b) := by
      rw [ih, h']; rfl
    rw [List.cons_append, splitSlash_cons_eq c hL, splitSlash_cons_eq c h']
    split <;> simp

/-- Each piece produced by `splitSlash` is free of '/'. -/
theorem splitSlash_pieces_no_slash (cs : List Char) :
    ∀ s ∈ splitSlash cs, '/' ∉ s.data := by
  induction cs with
  | nil => intro s hs; simp [splitSlash] at hs; subst hs; simp
  | cons c rest ih =>
    intro s hs
    obtain ⟨p, tail, h⟩ := splitSlash_head rest
    rw [splitSlash_cons_eq c h] at hs
    by_cases hc : c = '/'
    · rw [if_pos hc] at hs
      rcases List.mem_cons.mp hs with h1 | h1
      · subst h1; simp
      · exact ih s (h ▸ h1)
    · rw [if_neg hc] at hs
      rcases List.mem_cons.mp hs with h1 | h1
      · subst h1
        intro hmem
        rcases List.mem_cons.mp hmem with h2 | h2
        · exact hc h2.symm
        · exact ih p (h ▸ List.mem_cons_self p tail) h2
      · exact ih s (h ▸ List.mem_cons.mpr (Or.inr h1))

/-- Characters of a `splitSlash` piece come from the original list. -/
theorem splitSlash_pieces_chars (cs : List Char) :
    ∀ s ∈ splitSlash cs, ∀ c ∈ s.data, c ∈ cs := by
  induction cs with
  | nil => intro s hs; simp [splitSlash] at hs; subst hs; simp
  | cons c rest ih =>
    intro s hs d hd
    obtain ⟨p, tail, h⟩ := splitSlash_head rest
    rw [splitSlash_cons_eq c h] at hs
    by_cases hc : c = '/'
    · rw [if_pos hc] at hs
      rcases List.mem_cons.mp hs with h1 | h1
      · subst h1; simp at hd
      · exact List.mem_cons.mpr (Or.inr (ih s (h ▸ h1) d hd))
    · rw [if_neg hc] at hs
      rcases List.mem_cons.mp hs with h1 | h1
      · subst h1
        rcases List.mem_cons.mp hd with h2 | h2
        · exact List.mem_cons.mpr (Or.inl h2)
        · exact List.mem_cons.mpr
            (Or.inr (ih p (h ▸ List.mem_cons_self p tail) d h2))
      · exact List.mem_cons.mpr (Or.inr (ih s (h ▸ List.mem_cons.mpr (Or.inr h1)) d hd))

theorem joinSlash_chars (l : List String) :
    ∀ c ∈ joinSlash l, (∃ s ∈ l, c ∈ s.data) ∨ c = '/' := by
  induction l with
  | nil => intro c hc; simp [joinSlash] at hc
  | cons s rest ih =>
    intro c hc
    cases rest with
    | nil => exact Or.inl ⟨s, by simp, by simpa [joinSlash] using hc⟩
    | cons t rest' =>
      simp only [joinSlash, List.mem_append, List.mem_cons] at hc
      rcases hc with hc | hc | hc
      · exact Or.inl ⟨s, by simp, hc⟩
      · exact Or.inr hc
      · rcases ih c hc with ⟨u, hu, hcu⟩ | h
        · exact Or.inl ⟨u, List.mem_cons.mpr (Or.inr hu), hcu⟩
        · exact Or.inr h

/-- `splitSlash` undoes `joinSlash` on nonempty lists of slash-free pieces. -/
theorem splitSlash_joinSlash (l : List String) (hne : l ≠ [])
    (h : ∀ s ∈ l, '/' ∉ s.data) : splitSlash (joinSlash l) = l := by
  induction l with
  | nil => exact absurd rfl hne
  | cons s rest ih =>
    cases rest with
    | nil =>
      have := splitSlash_no_slash s.data (h s (by simp))
      simpa [joinSlash] using this
    | cons t rest' =>
      have hs : '/' ∉ s.data := h s (by simp)
      simp only [joinSlash]
      rw [splitSlash_append, splitSlash_no_slash s.data hs,
        ih (by simp) (fun u hu => h u (List.mem_cons.mpr (Or.inr hu)))]
      rfl

theorem parsePath_clean {s : String} (h : CleanSeg s) :
    parsePath s = ⟨false, [s]⟩ := by
  obtain ⟨h0, h1, _, h3⟩ := h
  have hd : s.data ≠ [] := fun hcon => h0 (by cases s; simp_all)
  have hss : startsSlash s = false := by
    unfold startsSlash
    cases hs : s.data with
    | nil => exact absurd hs hd
    | cons c rest =>
      have hcne : c ≠ '/' := fun hc => h3 (hs ▸ hc ▸ List.mem_cons_self _ _)
      simp [leadChars, Ne.symm hcne]
  unfold parsePath
  rw [hss, splitSlash_no_slash s.data h3]
  have hmk : String.mk s.data = s := by cases s; rfl
  rw [hmk]
  have e0 : (s == "") = false := beq_eq_false_iff_ne.mpr h0
  have e1 : (s == ".") = false := beq_eq_false_iff_ne.mpr h1
  simp [List.filter, e0, e1]

theorem resolveComps_from (init : List String) (cs : List String)
    (h : ∀ c ∈ cs, c ≠ "" ∧ c ≠ "." ∧ c ≠ "..") :
    cs.foldl
      (fun acc c =>
        if c = "" ∨ c = "." then acc
        else if c = ".." then acc.dropLast
        else acc ++ [c]) init = init ++ cs := by
  induction cs generalizing init with
  | nil => simp
  | cons c rest ih =>
    obtain ⟨h0, h1, h2⟩ := h c (List.mem_cons_self _ _)
    rw [List.foldl_cons, if_neg (by simp [h0, h1]), if_neg h2,
      ih (init ++ [c]) (fun d hd => h d (List.mem_cons.mpr (Or.inr hd)))]
    simp

theorem resolve_append_clean (p : PPath) (cs : List String)
    (h : ∀ c ∈ cs, c ≠ "" ∧ c ≠ "." ∧ c ≠ "..") :
    PPath.resolve ⟨p.abs, p.comps ++ cs⟩ = p.resolve ++ cs := by
  unfold PPath.resolve resolveComps
  rw [List.foldl_append]
  exact resolveComps_from _ cs h

theorem resolve_pchild {s : String} (p : PPath) (h : CleanSeg s) :
    (pchild p s).resolve = p.resolve ++ [s] := by
  unfold pchild
  rw [parsePath_clean h]
  unfold pjoin
  simp only [if_neg Bool.false_ne_true]
  exact resolve_append_clean p [s]
    (fun c hc => by
      rcases List.mem_singleton.mp hc with rfl
      exact ⟨h.1, h.2.1, h.2.2.1⟩)

theorem stemOf_chars (name : String) : ∀ c ∈ (stemOf name).data, c ∈ name.data := by
  unfold stemOf
  cases lastDot name.data with
  | none => intro c hc; exact hc
  | some i =>
    intro c hc
    simp only [] at hc
    split at hc
    · exact List.mem_of_mem_take (by simpa using hc)
    · exact hc

theorem data_append (s t : String) : (s ++ t).data = s.data ++ t.data := rfl

theorem tmpName_getLast (name : String) :
    (tmpName name).data.getLast? = some 'p' := by
  unfold tmpName
  rw [data_append]
  show (_ ++ ['.', 't', 'm', 'p']).getLast? = some 'p'
  rw [show ((stemOf name).data ++ ['.', 't', 'm', 'p'] =
    ((stemOf name).data ++ ['.', 't', 'm']) ++ ['p']) by simp]
  exact List.getLast?_concat _

theorem tmpName_clean {name : String} (h : '/' ∉ name.data) :
    CleanSeg (tmpName name) := by
  refine ⟨?_, ?_, ?_, ?_⟩
  · intro hcon
    have h2 := tmpName_getLast name
    rw [hcon] at h2
    exact absurd h2 (by decide)
  · intro hcon
    have h2 := tmpName_getLast name
    rw [hcon] at h2
    exact absurd h2 (by decide)
  · intro hcon
    have h2 := tmpName_getLast name
    rw [hcon] at h2
    exact absurd h2 (by decide)
  · intro hmem
    rw [tmpName, data_append] at hmem
    rcases List.mem_append.mp hmem with hm | hm
    · exact h (stemOf_chars name _ hm)
    · simp at hm

theorem tmpName_ne_chunks (name : String) : tmpName name ≠ ".chunks" := by
  intro hcon
  have h2 := tmpName_getLast name
  rw [hcon] at h2
  exact absurd h2 (by decide)

theorem isUnder_nil (b : List String) : isUnder [] b = true := rfl

theorem isUnder_refl (a : List String) : isUnder a a = true := by
  induction a with
  | nil => rfl
  | cons x xs ih => simp [isUnder, ih]

theorem isUnder_append (a b : List String) : isUnder a (a ++ b) = true := by
  induction a with
  | nil => rfl
  | cons x xs ih => simp [isUnder, ih]

theorem isUnder_shift (a s t : List String) :
    isUnder (a ++ s) (a ++ t) = isUnder s t := by
  induction a with
  | nil => rfl
  | cons x xs ih => simp [isUnder, ih]

theorem isUnder_length {a b : List String} (h : isUnder a b = true) :
    a.length ≤ b.length := by
  induction a generalizing b with
  | nil => simp
  | cons x xs ih =>
    cases b with
    | nil => simp [isUnder] at h
    | cons y ys =>
      simp only [isUnder, Bool.and_eq_true] at h
      simpa [Nat.succ_le_succ_iff] using ih h.2

theorem isUnder_drop {a b : List String} (h : isUnder a b = true) :
    a ++ b.drop a.length = b := by
  induction a generalizing b with
  | nil => simp
  | cons x xs ih =>
    cases b with
    | nil => simp [isUnder] at h
    | cons y ys =>
      simp only [isUnder, Bool.and_eq_true, decide_eq_true_eq] at h
      simp [h.1, ih h.2]

theorem append_left_ne {a : List String} {s t : List String} (h : s ≠ t) :
    a ++ s ≠ a ++ t := by
  intro hcon
  exact h (List.append_cancel_left hcon)

theorem lookupKey_filter_ne (k k' : List String)
    (l : List (List String × Entry)) (h : k' ≠ k) :
    lookupKey k' (l.filter (fun e => !(e.1 == k))) = lookupKey k' l := by
  induction l with
  | nil => rfl
  | cons e rest ih =>
    by_cases he : e.1 = k
    · have : (e.1 == k) = true := beq_iff_eq.mpr he
      simp only [List.filter, this, Bool.not_true, ih]
      rw [lookupKey, if_neg (fun hcon => h (hcon.symm.trans he))]
    · have : (e.1 == k) = false := beq_eq_false_iff_ne.mpr he
      simp only [List.filter, this, Bool.not_false]
      rw [lookupKey, lookupKey, ih]

theorem lookup_set_self (fs : FS) (k : List String) (v : Entry) :
    (fs.set k v).lookup k = some v := by
  simp [FS.set, FS.lookup, lookupKey]

theorem lookup_set_ne (fs : FS) {k k' : List String} (v : Entry) (h : k' ≠ k) :
    (fs.set k v).lookup k' = fs.lookup k' := by
  unfold FS.set FS.lookup FS.erase
  rw [lookupKey, if_neg (fun hcon => h hcon.symm)]
  exact lookupKey_filter_ne k k' fs.entries h

theorem lookup_erase_self (fs : FS) (k : List String) :
    (fs.erase k).lookup k = none := by
  unfold FS.erase FS.lookup
  induction fs.entries with
  | nil => rfl
  | cons e rest ih =>
    by_cases he : e.1 = k
    · have : (e.1 == k) = true := beq_iff_eq.mpr he
      simpa [List.filter, this] using ih
    · have : (e.1 == k) = false := beq_eq_false_iff_ne.mpr he
      simp only [List.filter, this, Bool.not_false]
      rw [lookupKey, if_neg he]
      exact ih

theorem lookup_erase_ne (fs : FS) {k k' : List String} (h : k' ≠ k) :
    (fs.erase k).lookup k' = fs.lookup k' := by
  unfold FS.erase FS.lookup
  exact lookupKey_filter_ne k k' fs.entries h

theorem lookup_eraseTree_under (fs : FS) {k k' : List String}
    (h : isUnder k k' = true) : (fs.eraseTree k).lookup k' = none := by
  unfold FS.eraseTree FS.lookup
  induction fs.entries with
  | nil => rfl
  | cons e rest ih =>
    by_cases he : isUnder k e.1 = true
    · simpa [List.filter, he] using ih
    · rw [Bool.not_eq_true] at he
      simp only [List.filter, he, Bool.not_false]
      rw [lookupKey, if_neg ?_]
      · exact ih
      · intro hcon
        rw [hcon, h] at he
        exact Bool.noConfusion he

theorem lookup_eraseTree_not_under (fs : FS) {k k' : List String}
    (h : isUnder k k' = false) : (fs.eraseTree k).lookup k' = fs.lookup k' := by
  unfold FS.eraseTree FS.lookup
  induction fs.entries with
  | nil => rfl
  | cons e rest ih =>
    by_cases he : isUnder k e.1 = true
    · simp only [List.filter, he, Bool.not_true, ih]
      rw [lookupKey, if_neg ?_]
      intro hcon
      rw [hcon, h] at he
      exact Bool.noConfusion he
    · rw [Bool.not_eq_true] at he
      simp only [List.filter, he, Bool.not_false]
      rw [lookupKey, lookupKey, ih]

theorem lookup_renameTree_other (fs : FS) {src dst k : List String}
    (hs : isUnder src k = false) (hd : isUnder dst k = false) :
    (fs.renameTree src dst).lookup k = fs.lookup k := by
  unfold FS.renameTree FS.lookup
  induction fs.entries with
  | nil => rfl
  | cons e rest ih =>
    simp only [List.map_cons]
    by_cases he : isUnder src e.1 = true
    · simp only [he, if_pos rfl]
      rw [lookupKey, if_neg, lookupKey, if_neg, ih]
      · intro hcon
        rw [hcon] at he; rw [he] at hs; exact absurd hs (by simp)
      · intro hcon
        have : isUnder dst k = true := hcon ▸ isUnder_append dst _
        rw [this] at hd; exact absurd hd (by simp)
    · rw [Bool.not_eq_true] at he
      simp only [he, if_neg Bool.false_ne_true]
      rw [lookupKey, lookupKey, ih]

theorem lookup_renameTree_set (fs : FS) (src dst : List String) (v : Entry) :
    ((fs.set src v).renameTree src dst).lookup dst = some v := by
  unfold FS.set FS.renameTree FS.lookup
  simp [isUnder_refl, lookupKey]

theorem mem_of_getLast?_eq {α : Type} {l : List α} {a : α}
    (h : l.getLast? = some a) : a ∈ l := by
  obtain ⟨hne, rfl⟩ := List.mem_getLast?_eq_getLast (show a ∈ l.getLast? from h)
  exact List.getLast_mem hne

theorem npStep_good {isl : Nat} {src : List Char} {acc : List String}
    {comp : String} (hp : '/' ∉ comp.data ∧ ∀ c ∈ comp.data, c ∈ src)
    (hg : GoodComps isl src acc) : GoodComps isl src (npStep isl acc comp) := by
  obtain ⟨hg1, hg2, m, rest, hacc, hnr⟩ := hg
  unfold npStep
  by_cases h1 : comp = "" ∨ comp = "."
  · rw [if_pos h1]; exact ⟨hg1, hg2, m, rest, hacc, hnr⟩
  · rw [if_neg h1]
    by_cases h2 : comp ≠ ".." ∨ (isl = 0 ∧ acc = []) ∨
        (acc ≠ [] ∧ acc.getLast? = some "..")
    · rw [if_pos h2]
      refine ⟨?_, ?_, ?_⟩
      · intro x hx
        rcases List.mem_append.mp hx with hx | hx
        · exact hg1 x hx
        · rcases List.mem_singleton.mp hx with rfl
          exact ⟨fun hcon => h1 (Or.inl hcon), hp.1, hp.2⟩
      · intro hisl x hx
        rcases List.mem_append.mp hx with hx | hx
        · exact hg2 hisl x hx
        · rcases List.mem_singleton.mp hx with rfl
          intro hcon
          rcases h2 with h2 | ⟨h2a, _⟩ | ⟨h2a, h2b⟩
          · exact h2 hcon
          · exact hisl h2a
          · exact hg2 hisl ".." (mem_of_getLast?_eq h2b) rfl
      · by_cases hc : comp = ".."
        · subst hc
          rcases h2 with h2 | ⟨_, h2b⟩ | ⟨h2a, h2b⟩
          · exact absurd rfl h2
          · subst h2b
            exact ⟨1, [], by simp, by simp⟩
          · have hrest : rest = [] := by
              by_contra hcon
              have := List.getLast?_append_of_ne_nil (List.replicate m "..") hcon
              rw [← hacc, h2b] at this
              exact hnr (mem_of_getLast?_eq this.symm)
            refine ⟨m + 1, [], ?_, by simp⟩
            rw [hacc, hrest, List.append_nil, List.append_nil,
              ← List.replicate_succ' m ".."]
        · refine ⟨m, rest ++ [comp], ?_, ?_⟩
          · rw [hacc, List.append_assoc]
          · intro hcon
            rcases List.mem_append.mp hcon with hcon | hcon
            · exact hnr hcon
            · exact hc (List.mem_singleton.mp hcon).symm
    · rw [if_neg h2]
      by_cases ha : acc = []
      · rw [if_neg (fun hcon => hcon ha)]
        exact ⟨hg1, hg2, m, rest, hacc, hnr⟩
      · rw [if_pos ha]
        refine ⟨fun x hx => hg1 x (List.dropLast_subset _ hx),
          fun hisl x hx => hg2 hisl x (List.dropLast_subset _ hx), ?_⟩
        cases hr : rest with
        | nil =>
          rw [hr, List.append_nil] at hacc
          refine ⟨m - 1, [], ?_, by simp⟩
          rw [hacc, List.append_nil, List.dropLast_replicate]
        | cons y ys =>
          refine ⟨m, rest.dropLast, ?_, fun hcon => hnr (List.dropLast_subset _ hcon)⟩
          rw [hacc, List.dropLast_append_of_ne_nil _ (hr ▸ List.cons_ne_nil y ys), hr]

theorem npFold_good {isl : Nat} {src : List Char} :
    ∀ (pieces : List String) (acc : List String),
      (∀ p ∈ pieces, '/' ∉ p.data ∧ ∀ c ∈ p.data, c ∈ src) →
      GoodComps isl src acc → GoodComps isl src (pieces.foldl (npStep isl) acc)
  | [], _, _, hg => hg
  | p :: rest, acc, hp, hg =>
    npFold_good rest (npStep isl acc p)
      (fun q hq => hp q (List.mem_cons.mpr (Or.inr hq)))
      (npStep_good (hp p (List.mem_cons_self _ _)) hg)

theorem newCompsOf_good (s : String) :
    GoodComps (initialSlashes s) s.data (newCompsOf s) := by
  unfold newCompsOf
  exact npFold_good (splitSlash s.data) []
    (fun p hp => ⟨splitSlash_pieces_no_slash s.data p hp,
      splitSlash_pieces_chars s.data p hp⟩)
    ⟨by simp, by simp, 0, [], rfl, by simp⟩

/-! ### Facts used to settle the `sanitize_path` claim -/

theorem startsSlash_of_no_slash {s : String} (h : '/' ∉ s.data) :
    startsSlash s = false := by
  unfold startsSlash
  cases hs : s.data with
  | nil => rfl
  | cons c rest =>
    have : c ≠ '/' := fun hc => h (hs ▸ hc ▸ List.mem_cons_self _ _)
    simp [leadChars, Ne.symm this]

theorem splitSlash_cons_slash (cs : List Char) :
    splitSlash ('/' :: cs) = "" :: splitSlash cs := by
  obtain ⟨s, tail, h⟩ := splitSlash_head cs
  rw [splitSlash_cons_eq '/' h, if_pos rfl, h]

theorem splitSlash_replicate_slash (n : Nat) (cs : List Char) :
    splitSlash (List.replicate n '/' ++ cs) =
      List.replicate n "" ++ splitSlash cs := by
  induction n with
  | zero => rfl
  | succ n ih => simp [List.replicate_succ, splitSlash_cons_slash, ih]

/-- Every byte of `normpath s` comes from `s` or is a slash or a dot. -/
theorem normpath_chars (s : String) :
    ∀ c ∈ (normpath s).data, c ∈ s.data ∨ c = '/' ∨ c = '.' := by
  unfold normpath
  by_cases h0 : s = ""
  · rw [if_pos h0]
    intro c hc
    simp only [show ("." : String).data = ['.'] from rfl, List.mem_singleton] at hc
    exact Or.inr (Or.inr hc)
  · rw [if_neg h0]
    by_cases hcs : List.replicate (initialSlashes s) '/' ++ joinSlash (newCompsOf s) = []
    · rw [if_pos hcs]
      intro c hc
      simp only [show ("." : String).data = ['.'] from rfl, List.mem_singleton] at hc
      exact Or.inr (Or.inr hc)
    · rw [if_neg hcs]
      intro c hc
      rcases List.mem_append.mp hc with hc | hc
      · exact Or.inr (Or.inl (List.eq_of_mem_replicate hc))
      · rcases joinSlash_chars _ c hc with ⟨x, hx, hcx⟩ | hc
        · exact Or.inl ((newCompsOf_good s).1 x hx |>.2.2 c hcx)
        · exact Or.inr (Or.inl hc)

/-- When the components of a resolved suffix contain no `'..'`, resolving
an extension only ever appends, so the prefix relation holds. -/
theorem resolveComps_extends (pieces : List String) (h : ".." ∉ pieces) :
    ∀ init, ∃ tail,
      pieces.foldl
        (fun acc c =>
          if c = "" ∨ c = "." then acc
          else if c = ".." then acc.dropLast
          else acc ++ [c]) init = init ++ tail := by
  induction pieces with
  | nil => intro init; exact ⟨[], by simp⟩
  | cons p rest ih =>
    intro init
    have hp : p ≠ ".." := fun hcon => h (hcon ▸ List.mem_cons_self _ _)
    have hr : ".." ∉ rest := fun hcon => h (List.mem_cons.mpr (Or.inr hcon))
    rw [List.foldl_cons]
    by_cases h1 : p = "" ∨ p = "."
    · rw [if_pos h1]; exact ih hr init
    · rw [if_neg h1, if_neg hp]
      obtain ⟨tail, htail⟩ := ih hr (init ++ [p])
      exact ⟨[p] ++ tail, by rw [htail, List.append_assoc]⟩

/-- `os.path.join(v, r)` stays inside `v` (lexically) whenever `r` is
relative and free of `'..'` segments. -/
theorem ojoin_contained (v r : String) (h1 : startsSlash r = false)
    (h2 : ".." ∉ splitSlash r.data) :
    isUnder (resolveStr v) (resolveStr (ojoin v r)) = true := by
  unfold ojoin
  rw [h1, if_neg (by simp)]
  by_cases hv0 : v = ""
  · rw [if_pos hv0, hv0]
    show isUnder (resolveStr "") _ = true
    have : resolveStr "" = [] := rfl
    rw [this]
    exact isUnder_nil _
  · rw [if_neg hv0]
    by_cases hvl : v.data.getLast? = some '/'
    · rw [if_pos hvl]
      have hvne : v.data ≠ [] := by
        intro hcon; rw [hcon] at hvl; exact Option.noConfusion hvl
      obtain ⟨hne, hlast⟩ := List.mem_getLast?_eq_getLast (show '/' ∈ v.data.getLast? from hvl)
      have hv : v.data = v.data.dropLast ++ ['/'] := by
        conv_lhs => rw [← List.dropLast_append_getLast hne]
        rw [← hlast]
      have hsplitv : splitSlash v.data = splitSlash v.data.dropLast ++ [""] := by
        conv_lhs => rw [hv]
        rw [show (v.data.dropLast ++ ['/'] : List Char) =
          v.data.dropLast ++ '/' :: [] by rfl, splitSlash_append]
        rfl
      have hsplitvr : splitSlash (v ++ r).data =
          splitSlash v.data.dropLast ++ splitSlash r.data := by
        rw [data_append]
        conv_lhs => rw [hv]
        rw [List.append_assoc]
        exact splitSlash_append _ _
      unfold resolveStr resolveComps
      rw [hsplitv, hsplitvr, List.foldl_append, List.foldl_append]
      obtain ⟨tail, htail⟩ := resolveComps_extends (splitSlash r.data) h2
        (List.foldl _ [] (splitSlash v.data.dropLast))
      rw [htail]
      have : List.foldl _ (List.foldl _ ([] : List String)
          (splitSlash v.data.dropLast)) [""] =
          List.foldl
            (fun acc c =>
              if c = "" ∨ c = "." then acc
              else if c = ".." then acc.dropLast
              else acc ++ [c])
            (List.foldl
              (fun acc c =>
                if c = "" ∨ c = "." then acc
                else if c = ".." then acc.dropLast
                else acc ++ [c]) ([] : List String)
              (splitSlash v.data.dropLast)) [""] := rfl
      rw [show ∀ init : List String,
          List.foldl
            (fun acc c =>
              if c = "" ∨ c = "." then acc
              else if c = ".." then acc.dropLast
              else acc ++ [c]) init [""] = init from fun init => by simp]
      exact isUnder_append _ _
    · rw [if_neg hvl]
      have hdata : (v ++ "/" ++ r).data = v.data ++ '/' :: r.data := by
        rw [data_append, data_append]
        simp [show ("/" : String).data = ['/'] from rfl]
      unfold resolveStr resolveComps
      rw [hdata, splitSlash_append, List.foldl_append]
      obtain ⟨tail, htail⟩ := resolveComps_extends (splitSlash r.data) h2
        (List.foldl _ [] (splitSlash v.data))
      rw [htail]
      exact isUnder_append _ _

theorem mk_data (s : String) : String.mk s.data = s := by cases s; rfl

theorem joinSlash_cons_data (x : String) (rest : List String) :
    ∃ t, joinSlash (x :: rest) = x.data ++ t := by
  cases rest with
  | nil => exact ⟨[], by simp [joinSlash]⟩
  | cons y ys => exact ⟨'/' :: joinSlash (y :: ys), rfl⟩

theorem leadChars_self_append (p t : List Char) : leadChars p (p ++ t) = true := by
  induction p with
  | nil => rfl
  | cons c cs ih => simp [leadChars, ih]

/-- Core property of `sanitize_path` on inputs made only of kept
characters and whose normal form does not lead with `'..'`: the result is
a relative name free of `'..'` segments. -/
theorem sanitize_props (s : String) (hkeep : ∀ c ∈ s.data, keepChar c = true)
    (hdots : leadChars ['.', '.'] (normpath s).data = false) :
    startsSlash (sanitize_path s) = false ∧
      ".." ∉ splitSlash (sanitize_path s).data := by
  by_cases h0 : s = ""
  · subst h0; decide
  by_cases hcs : List.replicate (initialSlashes s) '/' ++ joinSlash (newCompsOf s) = []
  · have hnp : normpath s = "." := by unfold normpath; rw [if_neg h0, if_pos hcs]
    unfold sanitize_path
    rw [hnp]
    decide
  have hnp : normpath s =
      String.mk (List.replicate (initialSlashes s) '/' ++ joinSlash (newCompsOf s)) := by
    unfold normpath; rw [if_neg h0, if_neg hcs]
  set isl := initialSlashes s with hisl_def
  set comps := newCompsOf s with hcomps_def
  set cs := List.replicate isl '/' ++ joinSlash comps with hcs_def
  have hdata : (normpath s).data = cs := by rw [hnp]
  have hdots' : leadChars ['.', '.'] cs = false := by rw [← hdata]; exact hdots
  have good := newCompsOf_good s
  rw [← hcomps_def, ← hisl_def] at good
  by_cases hsl : startsSlash (String.mk cs) = true
  · -- absolute normal form: basename branch
    have hisl0 : isl ≠ 0 := by
      intro hz
      rw [hz] at hcs_def
      simp only [List.replicate, List.nil_append] at hcs_def
      cases hcomp : comps with
      | nil => rw [hcomp] at hcs_def; exact hcs (by rw [hcs_def]; rfl)
      | cons x rest =>
        obtain ⟨t, ht⟩ := joinSlash_cons_data x rest
        have hx := good.1 x (hcomp ▸ List.mem_cons_self _ _)
        cases hxd : x.data with
        | nil => exact hx.1 (by cases x; simp_all)
        | cons c cdata =>
          have hcne : c ≠ '/' := fun hcon =>
            hx.2.1 (hxd ▸ hcon ▸ List.mem_cons_self _ _)
          rw [hcs_def, hcomp, ht, hxd] at hsl
          simp [startsSlash, leadChars, Ne.symm hcne] at hsl
    unfold sanitize_path
    rw [hnp, if_pos (Or.inr hsl)]
    have hsplit : splitSlash cs = List.replicate isl "" ++ splitSlash (joinSlash comps) := by
      rw [hcs_def]; exact splitSlash_replicate_slash isl _
    by_cases hcomp : comps = []
    · have hb : basename (String.mk cs) = "" := by
        unfold basename
        rw [show (String.mk cs).data = cs from rfl, hsplit, hcomp]
        rw [show joinSlash [] = [] from rfl,
          show splitSlash [] = [""] from rfl, List.getLastD_eq_getLast?,
          List.getLast?_concat]
        rfl
      rw [hb]; decide
    · have hjoin : splitSlash (joinSlash comps) = comps :=
        splitSlash_joinSlash comps hcomp (fun u hu => (good.1 u hu).2.1)
      have hlast : (splitSlash cs).getLast? = some (comps.getLast hcomp) := by
        rw [hsplit, hjoin,
          List.getLast?_append_of_ne_nil _ hcomp,
          List.getLast?_eq_getLast_of_ne_nil hcomp]
      have hb : basename (String.mk cs) = comps.getLast hcomp := by
        unfold basename
        rw [show (String.mk cs).data = cs from rfl, List.getLastD_eq_getLast?, hlast]
        rfl
      rw [hb]
      have hmem : comps.getLast hcomp ∈ comps := List.getLast_mem hcomp
      have hprop := good.1 _ hmem
      have hnd : comps.getLast hcomp ≠ ".." := good.2.1 hisl0 _ hmem
      refine ⟨startsSlash_of_no_slash hprop.2.1, ?_⟩
      rw [splitSlash_no_slash _ hprop.2.1, mk_data]
      intro hcon
      exact hnd (List.mem_singleton.mp hcon).symm
  · -- relative normal form: character-filter branch
    rw [Bool.not_eq_true] at hsl
    have hfilter : cs.filter keepChar = cs := by
      apply List.filter_eq_self.mpr
      intro c hc
      rcases normpath_chars s c (hdata ▸ hc) with h | h | h
      · exact hkeep c h
      · subst h; decide
      · subst h; decide
    have hr : sanitize_path s = String.mk cs := by
      unfold sanitize_path
      rw [hnp, if_neg ?_, show (String.mk cs).data = cs from rfl, hfilter]
      intro hcon
      rcases hcon with hcon | hcon
      · rw [show (String.mk cs).data = cs from rfl, hdots'] at hcon
        exact Bool.noConfusion hcon
      · rw [hsl] at hcon; exact Bool.noConfusion hcon
    have hisl0 : isl = 0 := by
      by_contra hz
      obtain ⟨m, hm⟩ : ∃ m, isl = m + 1 := ⟨isl - 1, by omega⟩
      rw [hm, List.replicate_succ, List.cons_append] at hcs_def
      rw [hcs_def] at hsl
      simp [startsSlash, leadChars] at hsl
    have hcs' : cs = joinSlash comps := by
      rw [hcs_def, hisl0]; rfl
    have hcomp : comps ≠ [] := by
      intro hcon
      rw [hcs', hcon] at hcs
      exact hcs rfl
    have hjoin : splitSlash cs = comps := by
      rw [hcs']
      exact splitSlash_joinSlash comps hcomp (fun u hu => (good.1 u hu).2.1)
    have hnodots : ".." ∉ comps := by
      obtain ⟨m, rest, hacc, hnr⟩ := good.2.2
      cases hm : m with
      | zero => rw [hm] at hacc; simpa [hacc] using hnr
      | succ m' =>
        exfalso
        rw [hm, List.replicate_succ, List.cons_append] at hacc
        obtain ⟨t, ht⟩ := joinSlash_cons_data ".." (List.replicate m' ".." ++ rest)
        have : leadChars ['.', '.'] cs = true := by
          rw [hcs', hacc, ht]
          exact leadChars_self_append ['.', '.'] t
        rw [hdots'] at this
        exact Bool.noConfusion this
    rw [hr]
    exact ⟨hsl, by rw [show (String.mk cs).data = cs from rfl, hjoin]; exact hnodots⟩

/-! ## Characterization of `validate_path` -/

theorem validate_ok_iff (fs : FS) (base p : PPath) (rd : Bool) :
    validate_path fs base p rd = .ok () ↔
      pexists fs base = true ∧ pexists fs p = true ∧
      strStartsWith (pstr p) (pstr base) = true ∧
      (rd = true → pIsDir fs p = true) := by
  unfold validate_path
  by_cases h1 : pexists fs base = false
  · simp [h1, Bool.eq_false_iff.mp h1]
  · rw [if_neg h1]
    rw [Bool.not_eq_false] at h1
    by_cases h2 : pexists fs p = false
    · simp [h2, Bool.eq_false_iff.mp h2, h1]
    · rw [if_neg h2]
      rw [Bool.not_eq_false] at h2
      by_cases h3 : strStartsWith (pstr p) (pstr base) = false
      · simp [h3, Bool.eq_false_iff.mp h3, h1, h2]
      · rw [if_neg h3]
        rw [Bool.not_eq_false] at h3
        by_cases h4 : rd = true ∧ pIsDir fs p = false
        · rw [if_pos h4]
          simp [h1, h2, h3, h4.1, h4.2]
        · rw [if_neg h4]
          simp only [h1, h2, h3, true_and]
          constructor
          · intro _ hrd
            by_contra hcon
            exact h4 ⟨hrd, Bool.not_eq_true _ ▸ hcon⟩
          · intro _; trivial

theorem validate_error_vnm (fs : FS) (base p : PPath) (rd : Bool)
    (h1 : pexists fs base = false) :
    validate_path fs base p rd = .error .volumeNotMounted := by
  unfold validate_path
  rw [if_pos h1]

theorem validate_error_pnf (fs : FS) (base p : PPath) (rd : Bool)
    (h1 : pexists fs base = true) (h2 : pexists fs p = false) :
    validate_path fs base p rd = .error .pathNotFound := by
  unfold validate_path
  rw [if_neg (by simp [h1]), if_pos h2]

theorem validate_error_ad (fs : FS) (base p : PPath) (rd : Bool)
    (h1 : pexists fs base = true) (h2 : pexists fs p = true)
    (h3 : strStartsWith (pstr p) (pstr base) = false) :
    validate_path fs base p rd = .error (.accessDenied "Access denied") := by
  unfold validate_path
  rw [if_neg (by simp [h1]), if_neg (by simp [h2]), if_pos h3]

theorem validate_error_dnf (fs : FS) (base p : PPath) (rd : Bool)
    (h1 : pexists fs base = true) (h2 : pexists fs p = true)
    (h3 : strStartsWith (pstr p) (pstr base) = true) (h4 : rd = true)
    (h5 : pIsDir fs p = false) :
    validate_path fs base p rd = .error .directoryNotFound := by
  unfold validate_path
  rw [if_neg (by simp [h1]), if_neg (by simp [h2]), if_neg (by simp [h3]),
    if_pos ⟨h4, h5⟩]

/-- C4 — the four checks of `validate_path` fire in the fixed source
order (volume mount, existence, textual containment, directory-ness), the
earliest failing check decides the error, and every directory-scoped
operation routes its validation through this chain, propagating the error
unchanged. -/
theorem c4_validation_order (fs : FS) (base p : PPath) (rd : Bool) :
    (pexists fs base = false →
      validate_path fs base p rd = .error .volumeNotMounted) ∧
    (pexists fs base = true → pexists fs p = false →
      validate_path fs base p rd = .error .pathNotFound) ∧
    (pexists fs base = true → pexists fs p = true →
      strStartsWith (pstr p) (pstr base) = false →
      validate_path fs base p rd = .error (.accessDenied "Access denied")) ∧
    (pexists fs base = true → pexists fs p = true →
      strStartsWith (pstr p) (pstr base) = true → rd = true → pIsDir fs p = false →
      validate_path fs base p rd = .error .directoryNotFound) ∧
    (∀ e, validate_path fs base p true = .error e →
      create_folder fs base p = (.error e, fs) ∧
      (∀ file exc, upload fs base file p exc = (.error e, fs)) ∧
      (∀ fn ci tc bs, upload_chunk fs base fn ci tc bs p = (.error e, fs)) ∧
      (∀ names dst, move_multiple fs base p names dst = (.error e, fs)) ∧
      (∀ op item dst nn, file_operation fs base op p item dst nn = (.error e, fs))) := by
  refine ⟨?_, ?_, ?_, ?_, ?_⟩
  · exact validate_error_vnm fs base p rd
  · exact validate_error_pnf fs base p rd
  · exact validate_error_ad fs base p rd
  · exact validate_error_dnf fs base p rd
  · intro e he
    refine ⟨?_, ?_, ?_, ?_, ?_⟩
    · unfold create_folder; rw [he]
    · intro file exc; unfold upload; rw [he]
    · intro fn ci tc bs; unfold upload_chunk; rw [he]
    · intro names dst; unfold move_multiple; rw [he]
    · intro op item dst nn; unfold file_operation; rw [he]

/-- Witness for C4: with the volume mounted but the target missing, and
the textual containment check also violated, the earlier existence check
wins and `PathNotFound` is raised. -/
theorem c4_validation_order_witness :
    validate_path fsVol vol ⟨true, ["other", "x"]⟩ true = .error .pathNotFound := by
  exact (c4_validation_order fsVol vol ⟨true, ["other", "x"]⟩ true).2.1
    (by decide) (by decide)

/-- C1 (amended) — `validate_path` guarantees only textual containment of
the unresolved rendered path: on success the rendered path extends the
rendered root, and an absolute request whose rendering does not extend the
root's is rejected with `PathNotFound` or `AccessDenied`; but a request
whose relative form contains `..` segments can resolve outside the root
and still pass (see the counterexample). -/
theorem c1_textual_containment (fs : FS) (base p : PPath) (rd : Bool) :
    (validate_path fs base p rd = .ok () →
      strStartsWith (pstr p) (pstr base) = true) ∧
    (pexists fs base = true → p.abs = true →
      strStartsWith (pstr p) (pstr base) = false →
      validate_path fs base (pjoin base p) rd = .error .pathNotFound ∨
      validate_path fs base (pjoin base p) rd = .error (.accessDenied "Access denied")) := by
  constructor
  · intro h
    exact ((validate_ok_iff fs base p rd).mp h).2.2.1
  · intro h1 h2 h3
    have hj : pjoin base p = p := by unfold pjoin; rw [if_pos h2]
    rw [hj]
    by_cases h4 : pexists fs p = false
    · exact Or.inl (validate_error_pnf fs base p rd h1 h4)
    · rw [Bool.not_eq_false] at h4
      exact Or.inr (validate_error_ad fs base p rd h1 h4 h3)

/-- Witness for C1: an absolute request `/outside/secret` against root
`/vol` is rejected (here with `PathNotFound`). -/
theorem c1_textual_containment_witness :
    validate_path fsVol vol (pjoin vol ⟨true, ["outside", "secret"]⟩) false =
      .error .pathNotFound ∨
    validate_path fsVol vol (pjoin vol ⟨true, ["outside", "secret"]⟩) false =
      .error (.accessDenied "Access denied") :=
  (c1_textual_containment fsVol vol ⟨true, ["outside", "secret"]⟩ false).2
    (by decide) (by decide) (by decide)

/-- Counterexample to C1 as stated: the request `../etc/passwd` contains a
`..` segment and resolves outside the volume root, yet `validate_path`
accepts it (the prefix check sees the unresolved string
`/vol/../etc/passwd`), and `delete` then operates on `/etc/passwd`,
outside the root. -/
theorem c1_counterexample :
    validate_path fsEscape vol (pchild vol "../etc/passwd") false = .ok () ∧
    isUnder vol.resolve (pchild vol "../etc/passwd").resolve = false ∧
    (delete fsEscape vol (pchild vol "../etc") "passwd").1 = .ok () ∧
    (delete fsEscape vol (pchild vol "../etc") "passwd").2.lookup
      ["etc", "passwd"] = none ∧
    fsEscape.lookup ["etc", "passwd"] = some (.file [42]) := by decide

/-- C9 (amended) — deleting an already-missing item is an error, not a
no-op: `file_operation` validates `dir/name` before dispatching, so when
`dir/name` does not exist `delete` fails with `PathNotFound` and leaves
the filesystem unchanged (the socket variant likewise reports "File ...
not found"); the `missing_ok`/`ignore_errors` flags only cover items that
vanish between validation and removal. -/
theorem c9_delete_missing (fs : FS) (base dir : PPath) (name : String)
    (hval : validate_path fs base dir true = .ok ())
    (hmiss : pexists fs (pchild dir name) = false) :
    delete fs base dir name = (.error .pathNotFound, fs) := by
  have hbase : pexists fs base = true := ((validate_ok_iff fs base dir true).mp hval).1
  have hitem : validate_path fs base (pchild dir name) false = .error .pathNotFound :=
    validate_error_pnf fs base (pchild dir name) false hbase hmiss
  unfold delete file_operation
  simp only [hval, hitem]

/-- Witness for C9: deleting the missing name `ghost` inside `/vol/d`
fails with `PathNotFound` without touching the filesystem. -/
theorem c9_delete_missing_witness :
    delete fsDir vol (pchild vol "d") "ghost" = (.error .pathNotFound, fsDir) :=
  c9_delete_missing fsDir vol (pchild vol "d") "ghost" (by decide) (by decide)

/-- Counterexample to C9 as stated: the claim says deleting a nonexistent
item succeeds, but the code raises `PathNotFound` from the item
validation. -/
theorem c9_counterexample :
    (delete fsDir vol (pchild vol "d") "phantom").1 = .error .pathNotFound := by
  decide

/-- C5 — for `rename`, `move` and whole-file `upload`, an existing
destination name makes the operation fail with `ItemExists` before any
mutation: the returned filesystem is exactly the input one. -/
theorem c5_item_exists_no_mutation (fs : FS) (base src dest path : PPath)
    (item nn filename : String) (content : Bytes) (exc : Option UploadExc) :
    (validate_path fs base src true = .ok () →
      validate_path fs base (pchild src item) false = .ok () →
      pexists fs (pchild src nn) = true →
      rename fs base src item nn = (.error .itemExists, fs)) ∧
    (validate_path fs base src true = .ok () →
      validate_path fs base (pchild src item) false = .ok () →
      validate_path fs base dest true = .ok () →
      pexists fs (pchild dest item) = true →
      move fs base src item dest = (.error .itemExists, fs)) ∧
    (validate_path fs base path true = .ok () →
      pexists fs (pchild path filename) = true →
      upload fs base (some (filename, content)) path exc = (.error .itemExists, fs)) := by
  refine ⟨?_, ?_, ?_⟩
  · intro hv1 hv2 hex
    unfold rename file_operation
    simp [hv1, hv2, hex]
  · intro hv1 hv2 hv3 hex
    unfold move file_operation
    simp [hv1, hv2, hv3, hex]
  · intro hval hex
    unfold upload
    simp [hval, hex]

/-- Witness for C5: renaming `y` to the existing `x`, moving `x` onto the
existing `d2/x`, and uploading over the existing `x` all fail with
`ItemExists` and leave the filesystem untouched. -/
theorem c5_item_exists_no_mutation_witness :
    rename fsCollide vol (pchild vol "d1") "y" "x" = (.error .itemExists, fsCollide) ∧
    move fsCollide vol (pchild vol "d1") "x" (pchild vol "d2") =
      (.error .itemExists, fsCollide) ∧
    upload fsCollide vol (some ("x", [7])) (pchild vol "d1") none =
      (.error .itemExists, fsCollide) := by
  have h := c5_item_exists_no_mutation fsCollide vol (pchild vol "d1")
    (pchild vol "d2") (pchild vol "d1") "x" "x" "x" [7] none
  exact ⟨h.1 (by decide) (by decide) (by decide),
    h.2.1 (by decide) (by decide) (by decide) (by decide),
    h.2.2 (by decide) (by decide)⟩

/-- C6 — when any exception occurs while writing the temp file or
renaming it onto the destination during a whole-file upload, the temp
file is deleted if present, the operation fails with `AccessDenied`
carrying the underlying error text, and nothing is left under the final
destination name. -/
theorem c6_upload_failure_cleanup (fs : FS) (base path : PPath)
    (filename : String) (content : Bytes) (exc : UploadExc)
    (hval : validate_path fs base path true = .ok ())
    (hdest : pexists fs (pchild path filename) = false) :
    (upload fs base (some (filename, content)) path (some exc)).1 =
      .error (.accessDenied exc.msg) ∧
    (upload fs base (some (filename, content)) path (some exc)).2.lookup
      (withSuffixTmp (pchild path filename)).resolve = none ∧
    (upload fs base (some (filename, content)) path (some exc)).2.lookup
      (pchild path filename).resolve = none := by
  have hdest' : fs.lookup (pchild path filename).resolve = none := by
    unfold pexists at hdest
    cases h : fs.lookup (pchild path filename).resolve with
    | none => rfl
    | some v => rw [h] at hdest; exact Bool.noConfusion hdest
  unfold upload
  simp only [hval, hdest]
  rw [if_neg (by simp)]
  set tempK := (withSuffixTmp (pchild path filename)).resolve with htk
  set destK := (pchild path filename).resolve with hdk
  cases exc with
  | writeFail leftover msg =>
    cases leftover with
    | some bs =>
      simp only [UploadExc.msg]
      have h1 : pexists (fs.set tempK (.file bs)) (withSuffixTmp (pchild path filename)) = true := by
        unfold pexists
        rw [← htk, lookup_set_self]
        rfl
      rw [if_pos h1]
      refine ⟨by trivial, lookup_erase_self _ _, ?_⟩
      by_cases hkk : destK = tempK
      · rw [hkk]; exact lookup_erase_self _ _
      · rw [lookup_erase_ne _ hkk, lookup_set_ne _ _ hkk]
        exact hdest'
    | none =>
      simp only [UploadExc.msg]
      by_cases h1 : pexists fs (withSuffixTmp (pchild path filename)) = true
      · rw [if_pos h1]
        refine ⟨by trivial, lookup_erase_self _ _, ?_⟩
        by_cases hkk : destK = tempK
        · rw [hkk]; exact lookup_erase_self _ _
        · rw [lookup_erase_ne _ hkk]
          exact hdest'
      · rw [if_neg h1]
        refine ⟨by trivial, ?_, hdest'⟩
        unfold pexists at h1
        rw [← htk] at h1
        cases h : fs.lookup tempK with
        | none => rfl
        | some v => rw [h] at h1; simp at h1
  | renameFail msg =>
    simp only [UploadExc.msg]
    have h1 : pexists (fs.set tempK (.file content)) (withSuffixTmp (pchild path filename)) = true := by
      unfold pexists
      rw [← htk, lookup_set_self]
      rfl
    rw [if_pos h1]
    refine ⟨by trivial, lookup_erase_self _ _, ?_⟩
    by_cases hkk : destK = tempK
    · rw [hkk]; exact lookup_erase_self _ _
    · rw [lookup_erase_ne _ hkk, lookup_set_ne _ _ hkk]
      exact hdest'

/-- Witness for C6: a failed write (leaving partial bytes in the temp
file) surfaces as `AccessDenied "disk full"` and leaves neither the temp
file nor the destination behind. -/
theorem c6_upload_failure_cleanup_witness :
    (upload fsVol vol (some ("f.txt", [1, 2])) vol
      (some (.writeFail (some [1]) "disk full"))).1 =
        .error (.accessDenied "disk full") ∧
    (upload fsVol vol (some ("f.txt", [1, 2])) vol
      (some (.writeFail (some [1]) "disk full"))).2.lookup
        (withSuffixTmp (pchild vol "f.txt")).resolve = none ∧
    (upload fsVol vol (some ("f.txt", [1, 2])) vol
      (some (.writeFail (some [1]) "disk full"))).2.lookup
        (pchild vol "f.txt").resolve = none :=
  c6_upload_failure_cleanup fsVol vol vol "f.txt" [1, 2]
    (.writeFail (some [1]) "disk full") (by decide) (by decide)

/-- C10 (amended) — `sanitize_path` returns a relative name with no `..`
segment, so that joining it to the volume path stays (lexically) inside
the volume, for exactly those inputs that consist of kept characters
(alphanumerics and `._- /`) and whose normalized form does not lead with
`..`; outside that class the result can itself be `..` or gain a leading
slash, escaping the volume (see the counterexample). -/
theorem c10_sanitize_path_confines (s : String)
    (hkeep : ∀ c ∈ s.data, keepChar c = true)
    (hdots : leadChars ['.', '.'] (normpath s).data = false) :
    startsSlash (sanitize_path s) = false ∧
    ".." ∉ splitSlash (sanitize_path s).data ∧
    ∀ v : String, isUnder (resolveStr v) (resolveStr (ojoin v (sanitize_path s))) = true := by
  obtain ⟨h1, h2⟩ := sanitize_props s hkeep hdots
  exact ⟨h1, h2, fun v => ojoin_contained v _ h1 h2⟩

/-- Witness for C10: a benign nested name is sanitized to a relative
`..`-free name confined to the volume. -/
theorem c10_sanitize_path_confines_witness :
    startsSlash (sanitize_path "docs/report.txt") = false ∧
    ".." ∉ splitSlash (sanitize_path "docs/report.txt").data ∧
    isUnder (resolveStr "/vol")
      (resolveStr (ojoin "/vol" (sanitize_path "docs/report.txt"))) = true := by
  obtain ⟨h1, h2, h3⟩ :=
    c10_sanitize_path_confines "docs/report.txt" (by decide) (by decide)
  exact ⟨h1, h2, h3 "/vol"⟩

/-- Counterexample to C10 as stated: `sanitize_path ".."` returns `".."`
itself — a `..` path segment — and `os.path.join` of the volume with it
resolves to the volume's parent, outside the volume. -/
theorem c10_counterexample :
    sanitize_path ".." = ".." ∧
    ".." ∈ splitSlash (sanitize_path "..").data ∧
    resolveStr (ojoin "/vol" (sanitize_path "..")) = [] ∧
    isUnder (resolveStr "/vol") (resolveStr (ojoin "/vol" (sanitize_path ".."))) =
      false := by decide

/-! ## The `Untitled Folder` name allocator -/

theorem decChars_no_slash (n : Nat) : '/' ∉ decChars n := by
  intro h
  have := decChars_digits n '/' h
  exact absurd this (by decide)

theorem untitledName_succ_data (k : Nat) :
    (untitledName (k + 1)).data = "Untitled Folder ".data ++ decChars (k + 1) := rfl

theorem untitledName_clean (j : Nat) : CleanSeg (untitledName j) := by
  cases j with
  | zero => exact ⟨by decide, by decide, by decide, by decide⟩
  | succ k =>
    have hlen : (untitledName (k + 1)).data.length = 16 + (decChars (k + 1)).length := by
      rw [untitledName_succ_data, List.length_append]
      rfl
    have hpos : (decChars (k + 1)).length ≠ 0 :=
      fun hcon => decChars_ne_nil (k + 1) (List.length_eq_zero.mp hcon)
    refine ⟨?_, ?_, ?_, ?_⟩
    · intro hcon
      rw [hcon] at hlen
      simp at hlen
      omega
    · intro hcon
      rw [hcon] at hlen
      simp [show ("." : String).data = ['.'] from rfl] at hlen
      omega
    · intro hcon
      rw [hcon] at hlen
      simp [show (".." : String).data = ['.', '.'] from rfl] at hlen
      omega
    · intro hmem
      rw [untitledName_succ_data] at hmem
      rcases List.mem_append.mp hmem with hm | hm
      · revert hm; decide
      · exact decChars_no_slash (k + 1) hm

theorem untitledName_injective : Function.Injective untitledName := by
  have hlen0 : (untitledName 0).data.length = 15 := by decide
  have hlenS : ∀ k, (untitledName (k + 1)).data.length = 16 + (decChars (k + 1)).length := by
    intro k
    rw [untitledName_succ_data, List.length_append]
    rfl
  intro a b h
  cases a with
  | zero =>
    cases b with
    | zero => rfl
    | succ b' =>
      exfalso
      have := congrArg (fun s => s.data.length) h
      simp only [hlen0, hlenS] at this
      have hpos : (decChars (b' + 1)).length ≠ 0 :=
        fun hcon => decChars_ne_nil (b' + 1) (List.length_eq_zero.mp hcon)
      omega
  | succ a' =>
    cases b with
    | zero =>
      exfalso
      have := congrArg (fun s => s.data.length) h
      simp only [hlen0, hlenS] at this
      have hpos : (decChars (a' + 1)).length ≠ 0 :=
        fun hcon => decChars_ne_nil (a' + 1) (List.length_eq_zero.mp hcon)
      omega
    | succ b' =>
      have hdata := congrArg String.data h
      rw [untitledName_succ_data, untitledName_succ_data] at hdata
      have hchars := List.append_cancel_left hdata
      have : a' + 1 = b' + 1 :=
        decStr_injective (show decStr (a' + 1) = decStr (b' + 1) by
          unfold decStr; rw [hchars])
      omega

theorem findName_spec (taken : String → Bool) :
    ∀ (fuel k d : Nat), d < fuel →
      (∀ j < d, taken (untitledName (k + j)) = true) →
      taken (untitledName (k + d)) = false →
      findName taken fuel k = untitledName (k + d) := by
  intro fuel
  induction fuel with
  | zero => intro k d h; omega
  | succ f ih =>
    intro k d hd htaken hfree
    cases d with
    | zero =>
      unfold findName
      have hf : taken (untitledName k) = false := hfree
      rw [if_neg (by simp [hf])]
      rfl
    | succ d' =>
      unfold findName
      have h0 : taken (untitledName k) = true := htaken 0 (by omega)
      rw [if_pos h0]
      have := ih (k + 1) d' (by omega)
        (fun j hj => by
          have := htaken (j + 1) (by omega)
          rwa [show k + (j + 1) = k + 1 + j by omega] at this)
        (by rwa [show k + 1 + d' = k + (d' + 1) by omega])
      rwa [show k + 1 + d' = k + (d' + 1) by omega] at this

theorem lookupKey_isSome_mem {k : List String} :
    ∀ l : List (List String × Entry),
      (lookupKey k l).isSome = true → k ∈ l.map Prod.fst := by
  intro l h
  induction l with
  | nil => simp [lookupKey] at h
  | cons e rest ih =>
    by_cases he : e.1 = k
    · exact List.mem_map.mpr ⟨e, List.mem_cons_self _ _, he⟩
    · have h' : (lookupKey k rest).isSome = true := by
        rw [show lookupKey k (e :: rest) =
          if e.1 = k then some e.2 else lookupKey k rest from rfl, if_neg he] at h
        exact h
      rcases List.mem_map.mp (ih h') with ⟨e', he', heq⟩
      exact List.mem_map.mpr ⟨e', List.mem_cons.mpr (Or.inr he'), heq⟩

theorem lookup_isSome_mem {fs : FS} {k : List String}
    (h : (fs.lookup k).isSome = true) : k ∈ fs.entries.map Prod.fst :=
  lookupKey_isSome_mem fs.entries h

theorem taken_le_entries (fs : FS) (path : PPath) (k : Nat)
    (htaken : ∀ j < k, pexists fs (pchild path (untitledName j)) = true) :
    k ≤ fs.entries.length := by
  have hkey : ∀ j, (pchild path (untitledName j)).resolve =
      path.resolve ++ [untitledName j] :=
    fun j => resolve_pchild path (untitledName_clean j)
  have hsub : ((List.range k).map
      (fun j => (pchild path (untitledName j)).resolve)) ⊆ fs.entries.map Prod.fst := by
    intro x hx
    rcases List.mem_map.mp hx with ⟨j, hj, rfl⟩
    exact lookup_isSome_mem (htaken j (List.mem_range.mp hj))
  have hinj : Function.Injective (fun j => (pchild path (untitledName j)).resolve) := by
    intro a b hab
    simp only [hkey] at hab
    have := List.append_cancel_left hab
    exact untitledName_injective (List.singleton_injective this)
  have hnodup : ((List.range k).map
      (fun j => (pchild path (untitledName j)).resolve)).Nodup :=
    (List.nodup_range k).map hinj
  have := (List.subperm_of_subset hnodup hsub).length_le
  simpa using this

/-- C8 — `create_folder` allocates the first name in the sequence
`Untitled Folder`, `Untitled Folder 1`, `Untitled Folder 2`, ... that does
not exist in the directory, and creates that folder: if every earlier
candidate is taken and candidate `k` is free, the allocated name is
candidate `k` and the new filesystem holds it as a directory. -/
theorem c8_create_folder_first_free (fs : FS) (base path : PPath) (k : Nat)
    (hval : validate_path fs base path true = .ok ())
    (htaken : ∀ j < k, pexists fs (pchild path (untitledName j)) = true)
    (hfree : pexists fs (pchild path (untitledName k)) = false) :
    (create_folder fs base path).1 = .ok (untitledName k) ∧
    (create_folder fs base path).2.lookup
      (pchild path (untitledName k)).resolve = some .dir := by
  have hk : k ≤ fs.entries.length := taken_le_entries fs path k htaken
  have hname : findName (fun name => pexists fs (pchild path name))
      (fs.entries.length + 1) 0 = untitledName k := by
    have := findName_spec (fun name => pexists fs (pchild path name))
      (fs.entries.length + 1) 0 k (by omega)
      (fun j hj => by simpa using htaken j hj)
      (by simpa using hfree)
    simpa using this
  unfold create_folder
  simp only [hval, hname]
  exact ⟨by trivial, lookup_set_self _ _ _⟩

/-- Witness for C8: with `Untitled Folder` and `Untitled Folder 1`
present, the allocator returns and creates `Untitled Folder 2`. -/
theorem c8_create_folder_first_free_witness :
    (create_folder fsUntitled vol vol).1 = .ok "Untitled Folder 2" ∧
    (create_folder fsUntitled vol vol).2.lookup
      ["vol", "Untitled Folder 2"] = some .dir := by
  have h := c8_create_folder_first_free fsUntitled vol vol 2
    (by decide) (by decide) (by decide)
  have h2 : untitledName 2 = "Untitled Folder 2" := by decide
  have h3 : (pchild vol (untitledName 2)).resolve = ["vol", "Untitled Folder 2"] := by
    decide
  exact ⟨by rw [← h2]; exact h.1, by rw [← h3]; exact h.2⟩

/-! ## Batch moves -/

theorem moveStep_length (base src dst : PPath) :
    ∀ (names : List String) (acc : List String × List (String × String) × FS),
      (names.foldl (moveStep base src dst) acc).1.length +
        (names.foldl (moveStep base src dst) acc).2.1.length =
      acc.1.length + acc.2.1.length + names.length := by
  intro names
  induction names with
  | nil => intro acc; simp
  | cons n rest ih =>
    intro acc
    rw [List.foldl_cons, ih]
    show (moveStep base src dst acc n).1.length +
      (moveStep base src dst acc n).2.1.length + rest.length = _
    unfold moveStep
    rcases h : move acc.2.2 base src n dst with ⟨r, fs'⟩
    cases r with
    | ok u => simp [List.length_append]; omega
    | error e => simp [List.length_append]; omega

/-- C7 — `move_multiple` applies `move` to each listed item independently
and aggregates per-item results: every item is accounted for (successes
plus failures equal the number of items, so one failure never aborts the
rest), and in the three-item scenario where exactly the second collides at
the destination, the result reports the two successes and the one failure,
and the two successful items really moved. -/
theorem c7_move_multiple_partial_failure :
    (∀ (fs : FS) (base src dst : PPath) (names : List String)
        (s : List String) (f : List (String × String)) (fs' : FS),
        move_multiple fs base src names dst = (.ok (s, f), fs') →
        s.length + f.length = names.length) ∧
    ((move_multiple fsMove vol srcD ["a", "b", "c"] dstD).1 =
      .ok (["a", "c"], [("b", "An item with this name already exists")]) ∧
     (move_multiple fsMove vol srcD ["a", "b", "c"] dstD).2.lookup
       ["vol", "dstd", "a"] = some (.file [1]) ∧
     (move_multiple fsMove vol srcD ["a", "b", "c"] dstD).2.lookup
       ["vol", "dstd", "c"] = some (.file [3]) ∧
     (move_multiple fsMove vol srcD ["a", "b", "c"] dstD).2.lookup
       ["vol", "srcd", "a"] = none ∧
     (move_multiple fsMove vol srcD ["a", "b", "c"] dstD).2.lookup
       ["vol", "srcd", "c"] = none ∧
     (move_multiple fsMove vol srcD ["a", "b", "c"] dstD).2.lookup
       ["vol", "srcd", "b"] = some (.file [2]) ∧
     (move_multiple fsMove vol srcD ["a", "b", "c"] dstD).2.lookup
       ["vol", "dstd", "b"] = some (.file [9])) := by
  constructor
  · intro fs base src dst names s f fs' h
    unfold move_multiple at h
    cases hv1 : validate_path fs base src true with
    | error e => rw [hv1] at h; simp at h
    | ok u =>
      cases u
      rw [hv1] at h
      cases hv2 : validate_path fs base dst true with
      | error e => rw [hv2] at h; simp at h
      | ok u =>
        cases u
        rw [hv2] at h
        simp only [Prod.mk.injEq, Except.ok.injEq] at h
        obtain ⟨⟨hs, hf⟩, _⟩ := h
        rw [← hs, ← hf]
        simpa using moveStep_length base src dst names ([], [], fs)
  · decide

/-- Witness for C7: the universal accounting part applied to the concrete
three-item scenario. -/
theorem c7_move_multiple_partial_failure_witness :
    (["a", "c"] : List String).length +
      ([("b", "An item with this name already exists")] :
        List (String × String)).length = (["a", "b", "c"] : List String).length := by
  refine c7_move_multiple_partial_failure.1 fsMove vol srcD dstD
    ["a", "b", "c"] ["a", "c"] [("b", "An item with this name already exists")]
    (move_multiple fsMove vol srcD ["a", "b", "c"] dstD).2 ?_
  have h1 := c7_move_multiple_partial_failure.2.1
  exact Prod.ext h1 rfl

theorem partName_data (i : Nat) :
    (partName i).data = decChars i ++ ['.', 'p', 'a', 'r', 't'] := rfl

theorem cleanSeg_partName (i : Nat) : CleanSeg (partName i) := by
  have hlen : (partName i).data.length = (decChars i).length + 5 := by
    rw [partName_data, List.length_append]
    rfl
  have hpos : (decChars i).length ≠ 0 :=
    fun hcon => decChars_ne_nil i (List.length_eq_zero.mp hcon)
  refine ⟨?_, ?_, ?_, ?_⟩
  · intro hcon; rw [hcon] at hlen; simp at hlen
  · intro hcon
    rw [hcon] at hlen
    simp [show ("." : String).data = ['.'] from rfl] at hlen
  · intro hcon
    rw [hcon] at hlen
    simp [show (".." : String).data = ['.', '.'] from rfl] at hlen
  · intro hmem
    rw [partName_data] at hmem
    rcases List.mem_append.mp hmem with hm | hm
    · exact decChars_no_slash i hm
    · simp at hm

theorem partName_injective : Function.Injective partName := by
  intro a b h
  have hdata := congrArg String.data h
  rw [partName_data, partName_data] at hdata
  have hchars := List.append_cancel_right hdata
  have h1 := decVal_decChars a
  have h2 := decVal_decChars b
  rw [hchars] at h1
  rw [h1] at h2
  exact h2

theorem cleanSeg_chunks : CleanSeg ".chunks" := by
  refine ⟨by decide, by decide, by decide, by decide⟩

theorem resolve_pchild_chunks (path : PPath) :
    (pchild path ".chunks").resolve = chunksKey path :=
  resolve_pchild path cleanSeg_chunks

theorem resolve_fcd {filename : String} (path : PPath) (hfn : CleanSeg filename) :
    (pchild (pchild path ".chunks") filename).resolve = fcdKey path filename := by
  rw [resolve_pchild _ hfn, resolve_pchild_chunks]
  unfold chunksKey fcdKey
  simp

theorem resolve_part {filename : String} (path : PPath) (hfn : CleanSeg filename)
    (i : Nat) :
    (pchild (pchild (pchild path ".chunks") filename) (partName i)).resolve =
      partKey path filename i := by
  rw [resolve_pchild _ (cleanSeg_partName i), resolve_fcd path hfn]
  unfold fcdKey partKey
  simp

theorem resolve_dest {filename : String} (path : PPath) (hfn : CleanSeg filename) :
    (pchild path filename).resolve = destKey path filename :=
  resolve_pchild path hfn

theorem resolve_temp {filename : String} (path : PPath) (hfn : CleanSeg filename) :
    (withSuffixTmp (pchild path filename)).resolve = tempKey path filename := by
  have hpc : pchild path filename = ⟨path.abs, path.comps ++ [filename]⟩ := by
    unfold pchild
    rw [parsePath_clean hfn]
    unfold pjoin
    simp
  rw [hpc]
  unfold withSuffixTmp
  simp only [List.dropLast_concat]
  have hlast : (path.comps ++ [filename]).getLastD "" = filename := by
    rw [List.getLastD_eq_getLast?, List.getLast?_concat]
    rfl
  rw [hlast]
  have hclean : CleanSeg (tmpName filename) := tmpName_clean hfn.2.2.2
  have := resolve_append_clean ⟨path.abs, path.comps⟩ [tmpName filename]
    (fun c hc => by
      rcases List.mem_singleton.mp hc with rfl
      exact ⟨hclean.1, hclean.2.1, hclean.2.2.1⟩)
  unfold tempKey
  exact this

/-! ## Distinctness of the session keys -/

theorem ne_of_append_length {R : List String} {s t : List String}
    (h : s.length ≠ t.length) : R ++ s ≠ R ++ t := by
  intro hcon
  exact h (by have := congrArg List.length (List.append_cancel_left hcon); exact this)

theorem chunksKey_ne_destKey {filename : String} (path : PPath)
    (hfc : filename ≠ ".chunks") : chunksKey path ≠ destKey path filename := by
  unfold chunksKey destKey
  intro hcon
  have := List.singleton_injective (List.append_cancel_left hcon)
  exact hfc this.symm

theorem fcdKey_ne_destKey {filename : String} (path : PPath) :
    fcdKey path filename ≠ destKey path filename :=
  ne_of_append_length (by simp)

theorem partKey_ne_destKey {filename : String} (path : PPath) (i : Nat) :
    partKey path filename i ≠ destKey path filename :=
  ne_of_append_length (by simp)

theorem partKey_ne_chunksKey {filename : String} (path : PPath) (i : Nat) :
    partKey path filename i ≠ chunksKey path :=
  ne_of_append_length (by simp)

theorem partKey_ne_fcdKey {filename : String} (path : PPath) (i : Nat) :
    partKey path filename i ≠ fcdKey path filename :=
  ne_of_append_length (by simp)

theorem fcdKey_ne_chunksKey {filename : String} (path : PPath) :
    fcdKey path filename ≠ chunksKey path :=
  ne_of_append_length (by simp)

theorem partKey_inj {filename : String} (path : PPath) {i j : Nat} (h : i ≠ j) :
    partKey path filename i ≠ partKey path filename j := by
  unfold partKey
  intro hcon
  have h1 := List.append_cancel_left hcon
  simp only [List.cons.injEq, and_true, true_and] at h1
  exact h (partName_injective h1)

theorem tempKey_ne_chunksKey {filename : String} (path : PPath) :
    tempKey path filename ≠ chunksKey path := by
  unfold tempKey chunksKey
  intro hcon
  have := List.singleton_injective (List.append_cancel_left hcon)
  exact tmpName_ne_chunks filename this

theorem tempKey_ne_fcdKey {filename : String} (path : PPath) :
    tempKey path filename ≠ fcdKey path filename :=
  ne_of_append_length (by simp)

theorem tempKey_ne_partKey {filename : String} (path : PPath) (i : Nat) :
    tempKey path filename ≠ partKey path filename i :=
  ne_of_append_length (by simp)

theorem resolve_ne_append (path : PPath) (s : List String) (h : s ≠ []) :
    path.resolve ≠ path.resolve ++ s := by
  intro hcon
  have := congrArg List.length hcon
  rw [List.length_append] at this
  have : s.length = 0 := by omega
  exact h (List.length_eq_zero.mp this)

/-! ## `isUnder` facts for the session keys -/

theorem isUnder_fcd_destKey {filename : String} (path : PPath)
    (hfc : filename ≠ ".chunks") :
    isUnder (fcdKey path filename) (destKey path filename) = false := by
  unfold fcdKey destKey
  rw [isUnder_shift]
  simp [isUnder, Ne.symm hfc]

theorem isUnder_fcd_partKey {filename : String} (path : PPath) (i : Nat) :
    isUnder (fcdKey path filename) (partKey path filename i) = true := by
  unfold fcdKey partKey
  rw [show path.resolve ++ [".chunks", filename, partName i] =
    path.resolve ++ [".chunks", filename] ++ [partName i] by simp]
  exact isUnder_append _ _

theorem isUnder_fcd_self {filename : String} (path : PPath) :
    isUnder (fcdKey path filename) (fcdKey path filename) = true :=
  isUnder_refl _

theorem isUnder_temp_fcdKey {filename : String} (path : PPath) :
    isUnder (tempKey path filename) (fcdKey path filename) = false := by
  unfold tempKey fcdKey
  rw [isUnder_shift]
  simp [isUnder, tmpName_ne_chunks filename]

theorem isUnder_temp_partKey {filename : String} (path : PPath) (i : Nat) :
    isUnder (tempKey path filename) (partKey path filename i) = false := by
  unfold tempKey partKey
  rw [isUnder_shift]
  simp [isUnder, tmpName_ne_chunks filename]

theorem isUnder_dest_fcdKey {filename : String} (path : PPath)
    (hfc : filename ≠ ".chunks") :
    isUnder (destKey path filename) (fcdKey path filename) = false := by
  unfold destKey fcdKey
  rw [isUnder_shift]
  simp [isUnder, hfc]

theorem isUnder_dest_partKey {filename : String} (path : PPath) (i : Nat)
    (hfc : filename ≠ ".chunks") :
    isUnder (destKey path filename) (partKey path filename i) = false := by
  unfold destKey partKey
  rw [isUnder_shift]
  simp [isUnder, hfc]

/-! ## Scan and concatenation helpers -/

theorem firstMissingAux_none (p : Nat → Bool) :
    ∀ (n k : Nat), (∀ d < n, p (k + d) = false) → firstMissingAux p k n = none := by
  intro n
  induction n with
  | zero => intro k _; rfl
  | succ m ih =>
    intro k h
    unfold firstMissingAux
    rw [if_neg (by simp [show p k = false from by simpa using h 0 (by omega)])]
    exact ih (k + 1) (fun d hd => by
      have := h (d + 1) (by omega)
      rwa [show k + (d + 1) = k + 1 + d by omega] at this)

theorem firstMissingAux_some (p : Nat → Bool) :
    ∀ (n k d : Nat), d < n → (∀ e < d, p (k + e) = false) → p (k + d) = true →
      firstMissingAux p k n = some (k + d) := by
  intro n
  induction n with
  | zero => intro k d h; omega
  | succ m ih =>
    intro k d hd hlow hhit
    cases d with
    | zero =>
      unfold firstMissingAux
      rw [if_pos (by simpa using hhit)]
      rfl
    | succ d' =>
      unfold firstMissingAux
      rw [if_neg (by simp [show p k = false from by simpa using hlow 0 (by omega)])]
      have := ih (k + 1) d' (by omega)
        (fun e he => by
          have := hlow (e + 1) (by omega)
          rwa [show k + (e + 1) = k + 1 + e by omega] at this)
        (by rwa [show k + 1 + d' = k + (d' + 1) by omega])
      rwa [show k + 1 + d' = k + (d' + 1) by omega] at this

theorem concatFrom_congr (f g : Nat → Bytes) :
    ∀ (n k : Nat), (∀ j, k ≤ j → j < k + n → f j = g j) →
      concatFrom f k n = concatFrom g k n := by
  intro n
  induction n with
  | zero => intro k _; rfl
  | succ m ih =>
    intro k h
    unfold concatFrom
    rw [h k (by omega) (by omega), ih (k + 1) (fun j hj1 hj2 => h j (by omega) (by omega))]

/-- Looking up a key untouched by a conditional `mkdir`. -/
theorem lookup_if_set (fs : FS) (c : Prop) [Decidable c] (k1 k : List String)
    (v : Entry) (h : k ≠ k1) :
    (if c then fs else fs.set k1 v).lookup k = fs.lookup k := by
  split
  · rfl
  · exact lookup_set_ne fs v h

/-- A conditional `mkdir` leaves the target key present. -/
theorem lookup_if_set_isSome (fs : FS) (p : PPath) (v : Entry) :
    ((if pexists fs p then fs else fs.set p.resolve v).lookup p.resolve).isSome = true := by
  by_cases hc : pexists fs p = true
  · rw [if_pos hc]
    unfold pexists at hc
    exact hc
  · rw [if_neg hc, lookup_set_self]
    rfl

/-! ## The chunk-session invariant -/

theorem lookup_chunkScratchFS (fs : FS) (path : PPath) (filename : String)
    (k : List String)
    (h1 : k ≠ (pchild path ".chunks").resolve)
    (h2 : k ≠ (pchild (pchild path ".chunks") filename).resolve) :
    (chunkScratchFS fs path filename).lookup k = fs.lookup k := by
  unfold chunkScratchFS
  rw [lookup_if_set _ _ _ _ _ h2, lookup_if_set _ _ _ _ _ h1]

theorem chunkScratch_fcd_isSome (fs : FS) (path : PPath) (filename : String) :
    ((chunkScratchFS fs path filename).lookup
      (pchild (pchild path ".chunks") filename).resolve).isSome = true := by
  unfold chunkScratchFS
  exact lookup_if_set_isSome _ _ _

theorem chunkScratch_chunks {filename : String} (fs : FS) (path : PPath)
    (hfn : CleanSeg filename) :
    (chunkScratchFS fs path filename).lookup (chunksKey path) = some .dir ∨
    (chunkScratchFS fs path filename).lookup (chunksKey path) =
      fs.lookup (chunksKey path) := by
  unfold chunkScratchFS
  rw [lookup_if_set _ _ _ _ _
    (by rw [resolve_fcd path hfn]; exact (fcdKey_ne_chunksKey path).symm)]
  rw [show (pchild path ".chunks").resolve = chunksKey path from
    resolve_pchild_chunks path]
  by_cases hc : pexists fs (pchild path ".chunks") = true
  · rw [if_pos hc]; exact Or.inr rfl
  · rw [if_neg hc]; exact Or.inl (lookup_set_self _ _ _)

theorem chunkScratch_fcd {filename : String} (fs : FS) (path : PPath)
    (hfn : CleanSeg filename) :
    (chunkScratchFS fs path filename).lookup (fcdKey path filename) = some .dir ∨
    (chunkScratchFS fs path filename).lookup (fcdKey path filename) =
      fs.lookup (fcdKey path filename) := by
  simp only [chunkScratchFS]
  rw [show (pchild (pchild path ".chunks") filename).resolve = fcdKey path filename
    from resolve_fcd path hfn]
  by_cases hc : pexists (if pexists fs (pchild path ".chunks") = true then fs
      else fs.set (pchild path ".chunks").resolve .dir)
      (pchild (pchild path ".chunks") filename) = true
  · rw [if_pos hc]
    right
    exact lookup_if_set _ _ _ _ _
      (by rw [resolve_pchild_chunks]; exact fcdKey_ne_chunksKey path)
  · rw [if_neg hc]
    left
    exact lookup_set_self _ _ _

theorem chunkInv_init (fs₀ : FS) (path : PPath) (filename : String)
    (chunkAt : Nat → Bytes) : ChunkInv fs₀ path filename chunkAt fs₀ [] := by
  refine ⟨by simp, fun i _ => rfl, Or.inr rfl, Or.inr rfl, fun k _ _ _ => rfl⟩

theorem chunkInv_congr {fs₀ : FS} {path : PPath} {filename : String}
    {chunkAt : Nat → Bytes} {fs : FS} {S S' : List Nat}
    (h : ∀ i, i ∈ S ↔ i ∈ S')
    (hinv : ChunkInv fs₀ path filename chunkAt fs S) :
    ChunkInv fs₀ path filename chunkAt fs S' := by
  obtain ⟨c1, c2, c3, c4, c5⟩ := hinv
  exact ⟨fun i hi => c1 i ((h i).mpr hi),
    fun i hi => c2 i (fun hc => hi ((h i).mp hc)), c3, c4, c5⟩

theorem chunkInv_lookup_any {fs₀ : FS} {path : PPath} {filename : String}
    {chunkAt : Nat → Bytes} {fs : FS} {S : List Nat}
    (hinv : ChunkInv fs₀ path filename chunkAt fs S) (k : List String) :
    (fs.lookup k).isSome = true ∨ fs.lookup k = fs₀.lookup k := by
  obtain ⟨c1, c2, c3, c4, c5⟩ := hinv
  by_cases h1 : k = chunksKey path
  · subst h1
    rcases c3 with h | h
    · left; rw [h]; rfl
    · right; exact h
  by_cases h2 : k = fcdKey path filename
  · subst h2
    rcases c4 with h | h
    · left; rw [h]; rfl
    · right; exact h
  by_cases h3 : ∃ i, k = partKey path filename i
  · obtain ⟨i, rfl⟩ := h3
    by_cases hs : i ∈ S
    · left; rw [c1 i hs]; rfl
    · right; exact c2 i hs
  · exact Or.inr (c5 k h1 h2 (fun i hcon => h3 ⟨i, hcon⟩))

theorem chunkInv_pexists {fs₀ : FS} {path : PPath} {filename : String}
    {chunkAt : Nat → Bytes} {fs : FS} {S : List Nat}
    (hinv : ChunkInv fs₀ path filename chunkAt fs S) (p : PPath)
    (h : pexists fs₀ p = true) : pexists fs p = true := by
  unfold pexists at h ⊢
  rcases chunkInv_lookup_any hinv p.resolve with hc | hc
  · exact hc
  · rw [hc]; exact h

theorem validate_preserved {fs₀ : FS} {base path : PPath} {filename : String}
    {chunkAt : Nat → Bytes} {fs : FS} {S : List Nat}
    (hinv : ChunkInv fs₀ path filename chunkAt fs S)
    (hval : validate_path fs₀ base path true = .ok ()) :
    validate_path fs base path true = .ok () := by
  rw [validate_ok_iff] at hval ⊢
  obtain ⟨h1, h2, h3, h4⟩ := hval
  have hpath : fs.lookup path.resolve = fs₀.lookup path.resolve := by
    refine hinv.2.2.2.2 path.resolve ?_ ?_ ?_
    · exact resolve_ne_append path [".chunks"] (by simp)
    · exact resolve_ne_append path [".chunks", filename] (by simp)
    · exact fun i => resolve_ne_append path [".chunks", filename, partName i] (by simp)
  refine ⟨chunkInv_pexists hinv base h1, ?_, h3, ?_⟩
  · unfold pexists at h2 ⊢
    rw [hpath]
    exact h2
  · intro hrd
    have := h4 hrd
    unfold pIsDir at this ⊢
    rw [hpath]
    exact this

theorem resolve_part' {filename : String} (path : PPath) (hfn : CleanSeg filename)
    (i : Nat) :
    (pchild (pchild (pchild path ".chunks") filename) (decStr i ++ ".part")).resolve =
      partKey path filename i :=
  resolve_part path hfn i

theorem chunkInv_step {fs₀ : FS} {base path : PPath} {filename : String}
    {chunkAt : Nat → Bytes} {fs : FS} {S : List Nat} (total i : Nat)
    (hfn : CleanSeg filename)
    (hval : validate_path fs₀ base path true = .ok ())
    (hinv : ChunkInv fs₀ path filename chunkAt fs S)
    (hi : ¬((i : Int) = (total : Int) - 1)) :
    (upload_chunk fs base filename i total (chunkAt i) path).1 =
      .ok (.chunkReceived i total) ∧
    ChunkInv fs₀ path filename chunkAt
      (upload_chunk fs base filename i total (chunkAt i) path).2 (i :: S) := by
  have hval' := validate_preserved hinv hval
  have hsc : ∀ k, k ≠ chunksKey path → k ≠ fcdKey path filename →
      (chunkScratchFS fs path filename).lookup k = fs.lookup k := by
    intro k h1 h2
    exact lookup_chunkScratchFS fs path filename k
      (by rw [resolve_pchild_chunks]; exact h1)
      (by rw [resolve_fcd path hfn]; exact h2)
  unfold upload_chunk
  simp only [hval']
  rw [if_neg hi, resolve_part' path hfn i]
  obtain ⟨c1, c2, c3, c4, c5⟩ := hinv
  refine ⟨rfl, ?_, ?_, ?_, ?_, ?_⟩
  · intro j hj
    by_cases hji : j = i
    · subst hji
      exact lookup_set_self _ _ _
    · have hjS : j ∈ S := by
        rcases List.mem_cons.mp hj with h | h
        · exact absurd h hji
        · exact h
      rw [lookup_set_ne _ _ (partKey_inj path hji),
        hsc _ (partKey_ne_chunksKey path j) (partKey_ne_fcdKey path j)]
      exact c1 j hjS
  · intro j hj
    have hji : j ≠ i := fun hcon => hj (hcon ▸ List.mem_cons_self _ _)
    have hjS : j ∉ S := fun hcon => hj (List.mem_cons.mpr (Or.inr hcon))
    rw [lookup_set_ne _ _ (partKey_inj path hji),
      hsc _ (partKey_ne_chunksKey path j) (partKey_ne_fcdKey path j)]
    exact c2 j hjS
  · rw [lookup_set_ne _ _ (partKey_ne_chunksKey path i).symm]
    rcases chunkScratch_chunks fs path hfn with h | h
    · exact Or.inl h
    · rw [h]; exact c3
  · rw [lookup_set_ne _ _ (partKey_ne_fcdKey path i).symm]
    rcases chunkScratch_fcd fs path hfn with h | h
    · exact Or.inl h
    · rw [h]; exact c4
  · intro k h1 h2 h3
    rw [lookup_set_ne _ _ (h3 i), hsc k h1 h2]
    exact c5 k h1 h2 h3

theorem chunkInv_run {fs₀ : FS} {base path : PPath} {filename : String}
    {chunkAt : Nat → Bytes} {total : Nat}
    (hfn : CleanSeg filename)
    (hval : validate_path fs₀ base path true = .ok ()) :
    ∀ (rest : List Nat) (fs : FS) (S : List Nat) (acc : Except Err ChunkStatus),
      ChunkInv fs₀ path filename chunkAt fs S →
      (∀ i ∈ rest, ¬((i : Int) = (total : Int) - 1)) →
      ChunkInv fs₀ path filename chunkAt
        (rest.foldl
          (fun acc i => upload_chunk acc.2 base filename i total (chunkAt i) path)
          (acc, fs)).2 (rest ++ S) := by
  intro rest
  induction rest with
  | nil => intro fs S acc hinv _; simpa using hinv
  | cons i rest' ih =>
    intro fs S acc hinv hne
    rw [List.foldl_cons]
    have hstep := chunkInv_step total i hfn hval hinv
      (hne i (List.mem_cons_self _ _))
    have hrec := ih (upload_chunk fs base filename i total (chunkAt i) path).2 (i :: S)
      (upload_chunk fs base filename i total (chunkAt i) path).1 hstep.2
      (fun j hj => hne j (List.mem_cons.mpr (Or.inr hj)))
    rw [Prod.mk.eta] at hrec
    exact chunkInv_congr
      (fun j => by
        simp only [List.mem_append, List.mem_cons]
        tauto)
      hrec

theorem upload_chunk_final_ok {fs₀ : FS} {base path : PPath} {filename : String}
    {chunkAt : Nat → Bytes} {total : Nat} {fs : FS} {S : List Nat}
    (hfn : CleanSeg filename) (hfc : filename ≠ ".chunks") (htot : 1 ≤ total)
    (hval : validate_path fs₀ base path true = .ok ())
    (hinv : ChunkInv fs₀ path filename chunkAt fs S)
    (hS : ∀ i, i < total - 1 → i ∈ S)
    (hdest : fs₀.lookup (destKey path filename) = none) :
    (upload_chunk fs base filename (total - 1) total (chunkAt (total - 1)) path).1 =
      .ok (.complete filename) ∧
    (upload_chunk fs base filename (total - 1) total (chunkAt (total - 1)) path).2.lookup
      (destKey path filename) = some (.file (concatFrom chunkAt 0 total)) ∧
    (upload_chunk fs base filename (total - 1) total (chunkAt (total - 1)) path).2.lookup
      (fcdKey path filename) = none ∧
    (∀ i, (upload_chunk fs base filename (total - 1) total
      (chunkAt (total - 1)) path).2.lookup (partKey path filename i) = none) := by
  have hval' := validate_preserved hinv hval
  have hsc : ∀ k, k ≠ chunksKey path → k ≠ fcdKey path filename →
      (chunkScratchFS fs path filename).lookup k = fs.lookup k := by
    intro k h1 h2
    exact lookup_chunkScratchFS fs path filename k
      (by rw [resolve_pchild_chunks]; exact h1)
      (by rw [resolve_fcd path hfn]; exact h2)
  have hparts3 : ∀ j, j < total →
      ((chunkScratchFS fs path filename).set (partKey path filename (total - 1))
        (.file (chunkAt (total - 1)))).lookup (partKey path filename j) =
      some (.file (chunkAt j)) := by
    intro j hj
    by_cases hje : j = total - 1
    · subst hje
      exact lookup_set_self _ _ _
    · rw [lookup_set_ne _ _ (partKey_inj path hje),
        hsc _ (partKey_ne_chunksKey path j) (partKey_ne_fcdKey path j)]
      exact hinv.1 j (hS j (by omega))
  have hdest3 : ((chunkScratchFS fs path filename).set
      (partKey path filename (total - 1)) (.file (chunkAt (total - 1)))).lookup
      (destKey path filename) = none := by
    rw [lookup_set_ne _ _ (partKey_ne_destKey path (total - 1)).symm,
      hsc _ (chunksKey_ne_destKey path hfc).symm (fcdKey_ne_destKey path).symm,
      hinv.2.2.2.2 _ (chunksKey_ne_destKey path hfc).symm (fcdKey_ne_destKey path).symm
        (fun i => (partKey_ne_destKey path i).symm)]
    exact hdest
  have hint : ((total - 1 : Nat) : Int) = (total : Int) - 1 := by omega
  unfold upload_chunk
  simp only [hval']
  rw [resolve_part' path hfn (total - 1), if_pos hint]
  have hpe : pexists ((chunkScratchFS fs path filename).set
      (partKey path filename (total - 1)) (.file (chunkAt (total - 1))))
      (pchild path filename) = false := by
    unfold pexists
    rw [resolve_dest path hfn, hdest3]
    rfl
  rw [if_neg (by simp [hpe])]
  have hfm : firstMissingAux
      (fun i => !(pexists ((chunkScratchFS fs path filename).set
        (partKey path filename (total - 1)) (.file (chunkAt (total - 1))))
        (pchild (pchild (pchild path ".chunks") filename) (decStr i ++ ".part"))))
      0 total = none := by
    apply firstMissingAux_none
    intro d hd
    have hpd : pexists ((chunkScratchFS fs path filename).set
        (partKey path filename (total - 1)) (.file (chunkAt (total - 1))))
        (pchild (pchild (pchild path ".chunks") filename)
          (decStr d ++ ".part")) = true := by
      unfold pexists
      rw [resolve_part' path hfn d, hparts3 d (by omega)]
      rfl
    simp [hpd]
  simp only [hfm]
  have hcontent : concatFrom
      (fun j => contentAt ((chunkScratchFS fs path filename).set
        (partKey path filename (total - 1)) (.file (chunkAt (total - 1))))
        (pchild (pchild (pchild path ".chunks") filename) (decStr j ++ ".part")))
      0 total = concatFrom chunkAt 0 total := by
    apply concatFrom_congr
    intro j hj0 hjt
    unfold contentAt
    rw [resolve_part' path hfn j, hparts3 j (by omega)]
  rw [hcontent, resolve_temp path hfn, resolve_dest path hfn, resolve_fcd path hfn]
  refine ⟨by trivial, ?_, ?_, ?_⟩
  · rw [lookup_eraseTree_not_under _ (isUnder_fcd_destKey path hfc)]
    exact lookup_renameTree_set _ _ _ _
  · exact lookup_eraseTree_under _ (isUnder_fcd_self path)
  · intro i
    exact lookup_eraseTree_under _ (isUnder_fcd_partKey path i)

/-- C2 (amended) — delivering the chunks of a file in any order in which
index `total-1` arrives last (reassembly fires when that index arrives,
not when the set completes) produces the destination file with the chunks
concatenated in ascending index order, removes the scratch directory, and
the content is byte-identical to what the whole-file upload of the same
bytes produces; a permutation where `total-1` is not last fails instead
(see the counterexample). -/
theorem c2_chunk_reassembly (fs₀ : FS) (base path : PPath) (filename : String)
    (chunkAt : Nat → Bytes) (total : Nat) (rest : List Nat)
    (hval : validate_path fs₀ base path true = .ok ())
    (hfn : CleanSeg filename) (hfc : filename ≠ ".chunks")
    (htot : 1 ≤ total)
    (hperm : rest.Perm (List.range (total - 1)))
    (hdest : fs₀.lookup (destKey path filename) = none) :
    (runChunks fs₀ base filename total chunkAt path (rest ++ [total - 1])).1 =
      .ok (.complete filename) ∧
    (runChunks fs₀ base filename total chunkAt path (rest ++ [total - 1])).2.lookup
      (destKey path filename) = some (.file (concatFrom chunkAt 0 total)) ∧
    (runChunks fs₀ base filename total chunkAt path (rest ++ [total - 1])).2.lookup
      (fcdKey path filename) = none ∧
    (∀ i, (runChunks fs₀ base filename total chunkAt path
      (rest ++ [total - 1])).2.lookup (partKey path filename i) = none) ∧
    (upload fs₀ base (some (filename, concatFrom chunkAt 0 total)) path none).1 =
      .ok () ∧
    (upload fs₀ base (some (filename, concatFrom chunkAt 0 total)) path none).2.lookup
      (destKey path filename) = some (.file (concatFrom chunkAt 0 total)) := by
  have hrest : ∀ i ∈ rest, ¬((i : Int) = (total : Int) - 1) := by
    intro i hi hcon
    have hmem := hperm.mem_iff.mp hi
    rw [List.mem_range] at hmem
    omega
  have hinv1 := chunkInv_run hfn hval rest fs₀ []
    (.ok (.chunkReceived 0 total)) (chunkInv_init fs₀ path filename chunkAt) hrest
  rw [List.append_nil] at hinv1
  have hS : ∀ i, i < total - 1 → i ∈ rest := fun i hi =>
    hperm.mem_iff.mpr (List.mem_range.mpr hi)
  have hfin := upload_chunk_final_ok hfn hfc htot hval hinv1 hS hdest
  have hpe : pexists fs₀ (pchild path filename) = false := by
    unfold pexists
    rw [resolve_dest path hfn, hdest]
    rfl
  unfold runChunks
  rw [List.foldl_append]
  simp only [List.foldl_cons, List.foldl_nil]
  refine ⟨hfin.1, hfin.2.1, hfin.2.2.1, hfin.2.2.2, ?_, ?_⟩
  · unfold upload
    simp only [hval]
    rw [if_neg (by simp [hpe])]
  · unfold upload
    simp only [hval]
    rw [if_neg (by simp [hpe]), resolve_temp path hfn, resolve_dest path hfn]
    exact lookup_renameTree_set _ _ _ _

/-- Witness for C2: two chunks delivered in order `[0, 1]` assemble into
`[1, 2, 3]` under the destination name, matching the whole-file upload. -/
theorem c2_chunk_reassembly_witness :
    (runChunks fsVol vol "f" 2 chunkW vol ([0] ++ [2 - 1])).1 =
      .ok (.complete "f") ∧
    (runChunks fsVol vol "f" 2 chunkW vol ([0] ++ [2 - 1])).2.lookup
      (destKey vol "f") = some (.file (concatFrom chunkW 0 2)) := by
  have h := c2_chunk_reassembly fsVol vol vol "f" chunkW 2 [0]
    (by decide) (by decide) (by decide) (by decide) (by decide) (by decide)
  exact ⟨h.1, h.2.1⟩

/-- Counterexample to C2 as stated: delivering the two chunks in the
permuted order `[1, 0]` triggers reassembly on arrival of index 1 while
chunk 0 is missing — the delivery fails, the later chunk-0 delivery only
acknowledges receipt, and no destination file is created, unlike the
whole-file upload of the same content. -/
theorem c2_counterexample :
    (runChunks fsVol vol "f" 2 chunkW vol [1]).1 =
      .error (.accessDenied "403: Chunk 0 is missing") ∧
    (runChunks fsVol vol "f" 2 chunkW vol [1, 0]).1 = .ok (.chunkReceived 0 2) ∧
    (runChunks fsVol vol "f" 2 chunkW vol [1, 0]).2.lookup (destKey vol "f") =
      none ∧
    (upload fsVol vol (some ("f", concatFrom chunkW 0 2)) vol none).2.lookup
      (destKey vol "f") = some (.file [1, 2, 3]) := by decide

/-- C3 (amended) — when reassembly fires (the last-indexed chunk arrives)
while part `j` is still missing, the operation fails with `AccessDenied`
whose detail wraps "Chunk j is missing" (the code has no `CorruptSession`
error), the temp file is deleted and nothing is created or left under the
destination name; the scratch directory, however, is left in place with
the earlier parts intact. -/
theorem c3_missing_chunk_failure (fs₀ : FS) (base path : PPath)
    (filename : String) (data : Bytes) (total j : Nat)
    (hval : validate_path fs₀ base path true = .ok ())
    (hfn : CleanSeg filename) (hfc : filename ≠ ".chunks")
    (hj : j < total - 1)
    (hmiss : fs₀.lookup (partKey path filename j) = none)
    (hlow : ∀ i, i < j → (fs₀.lookup (partKey path filename i)).isSome = true)
    (hdest : fs₀.lookup (destKey path filename) = none) :
    (upload_chunk fs₀ base filename (total - 1) total data path).1 =
      .error (.accessDenied (httpStr (.accessDenied
        ("Chunk " ++ decStr j ++ " is missing")))) ∧
    (upload_chunk fs₀ base filename (total - 1) total data path).2.lookup
      (destKey path filename) = none ∧
    (upload_chunk fs₀ base filename (total - 1) total data path).2.lookup
      (tempKey path filename) = none ∧
    ((upload_chunk fs₀ base filename (total - 1) total data path).2.lookup
      (fcdKey path filename)).isSome = true ∧
    (∀ i, i < j → (upload_chunk fs₀ base filename (total - 1) total
      data path).2.lookup (partKey path filename i) =
      fs₀.lookup (partKey path filename i)) := by
  have hsc : ∀ k, k ≠ chunksKey path → k ≠ fcdKey path filename →
      (chunkScratchFS fs₀ path filename).lookup k = fs₀.lookup k := by
    intro k h1 h2
    exact lookup_chunkScratchFS fs₀ path filename k
      (by rw [resolve_pchild_chunks]; exact h1)
      (by rw [resolve_fcd path hfn]; exact h2)
  have hp3 : ∀ i, i ≠ total - 1 →
      ((chunkScratchFS fs₀ path filename).set (partKey path filename (total - 1))
        (.file data)).lookup (partKey path filename i) =
      fs₀.lookup (partKey path filename i) := by
    intro i hi
    rw [lookup_set_ne _ _ (partKey_inj path hi),
      hsc _ (partKey_ne_chunksKey path i) (partKey_ne_fcdKey path i)]
  have hdest3 : ((chunkScratchFS fs₀ path filename).set
      (partKey path filename (total - 1)) (.file data)).lookup
      (destKey path filename) = none := by
    rw [lookup_set_ne _ _ (partKey_ne_destKey path (total - 1)).symm,
      hsc _ (chunksKey_ne_destKey path hfc).symm (fcdKey_ne_destKey path).symm]
    exact hdest
  have hint : ((total - 1 : Nat) : Int) = (total : Int) - 1 := by omega
  unfold upload_chunk
  simp only [hval]
  rw [resolve_part' path hfn (total - 1), if_pos hint]
  have hpe : pexists ((chunkScratchFS fs₀ path filename).set
      (partKey path filename (total - 1)) (.file data)) (pchild path filename) =
      false := by
    unfold pexists
    rw [resolve_dest path hfn, hdest3]
    rfl
  rw [if_neg (by simp [hpe])]
  have hfm : firstMissingAux
      (fun i => !(pexists ((chunkScratchFS fs₀ path filename).set
        (partKey path filename (total - 1)) (.file data))
        (pchild (pchild (pchild path ".chunks") filename) (decStr i ++ ".part"))))
      0 total = some j := by
    have := firstMissingAux_some
      (fun i => !(pexists ((chunkScratchFS fs₀ path filename).set
        (partKey path filename (total - 1)) (.file data))
        (pchild (pchild (pchild path ".chunks") filename) (decStr i ++ ".part"))))
      total 0 j (by omega)
      (fun e he => by
        have hpex : pexists ((chunkScratchFS fs₀ path filename).set
            (partKey path filename (total - 1)) (.file data))
            (pchild (pchild (pchild path ".chunks") filename)
              (decStr e ++ ".part")) = true := by
          unfold pexists
          rw [resolve_part' path hfn e, hp3 e (by omega)]
          exact hlow e he
        simp [hpex])
      (by
        have hpex : pexists ((chunkScratchFS fs₀ path filename).set
            (partKey path filename (total - 1)) (.file data))
            (pchild (pchild (pchild path ".chunks") filename)
              (decStr j ++ ".part")) = false := by
          unfold pexists
          rw [resolve_part' path hfn j, hp3 j (by omega), hmiss]
          rfl
        simp [hpex])
    rwa [Nat.zero_add] at this
  simp only [hfm]
  rw [resolve_temp path hfn]
  refine ⟨by trivial, ?_, ?_, ?_, ?_⟩
  · by_cases hdt : destKey path filename = tempKey path filename
    · rw [hdt]
      exact lookup_erase_self _ _
    · rw [lookup_erase_ne _ hdt, lookup_set_ne _ _ hdt]
      exact hdest3
  · exact lookup_erase_self _ _
  · rw [lookup_erase_ne _ (tempKey_ne_fcdKey path).symm,
      lookup_set_ne _ _ (tempKey_ne_fcdKey path).symm,
      lookup_set_ne _ _ (partKey_ne_fcdKey path (total - 1)).symm]
    have := chunkScratch_fcd_isSome fs₀ path filename
    rwa [resolve_fcd path hfn] at this
  · intro i hi
    rw [lookup_erase_ne _ (tempKey_ne_partKey path i).symm,
      lookup_set_ne _ _ (tempKey_ne_partKey path i).symm]
    exact hp3 i (by omega)

/-- Witness for C3: triggering reassembly of a two-chunk session with
chunk 0 missing fails with the wrapped "Chunk 0 is missing" detail while
the scratch directory survives. -/
theorem c3_missing_chunk_failure_witness :
    (upload_chunk fsVol vol "f" (2 - 1) 2 [9] vol).1 =
      .error (.accessDenied (httpStr (.accessDenied
        ("Chunk " ++ decStr 0 ++ " is missing")))) ∧
    ((upload_chunk fsVol vol "f" (2 - 1) 2 [9] vol).2.lookup
      (fcdKey vol "f")).isSome = true := by
  have h := c3_missing_chunk_failure fsVol vol vol "f" [9] 2 0
    (by decide) (by decide) (by decide) (by decide) (by decide)
    (fun i hi => absurd hi (by omega)) (by decide)
  exact ⟨h.1, h.2.2.2.1⟩

/-- Counterexample to C3 as stated: after the failed reassembly the error
is `AccessDenied` wrapping the missing-chunk text (no `CorruptSession`
exists in the code) and the session's scratch directory is still present
rather than removed; no destination file exists. -/
theorem c3_counterexample :
    (upload_chunk fsVol vol "f" 1 2 [9] vol).1 =
      .error (.accessDenied "403: Chunk 0 is missing") ∧
    (upload_chunk fsVol vol "f" 1 2 [9] vol).2.lookup
      ["vol", ".chunks", "f"] = some .dir ∧
    (upload_chunk fsVol vol "f" 1 2 [9] vol).2.lookup ["vol", "f"] = none := by
  decide

end NVM
